import Mathlib

/-!
Verification of the brand-health-index repository's core logic: the Reddit
fetcher's brand-mention term matcher (`detect_brand_mentions`), the
incremental poller with cursor/tie-breaker state
(`fetch_incremental_posts_and_comments`, `IngestionState`), and the
event-id / content-hash helpers, shallowly embedded from
`cloud-functions/reddit-fetcher/main.py` (and the matching functions of
`main_idempotent.py`).

Embedding conventions:
* Python strings are `String` / `List Char`; `str.lower`, `str.isalnum`,
  `str.strip` are modelled at ASCII level (`Char.toLower`, `Char.isAlphanum`,
  `Char.isWhitespace`), which agrees with Python on the ASCII texts and alias
  tables of this repository.
* Python floats (confidence scores) are modelled as `ℚ`; the literals
  0.4/0.2/0.7/0.3/1.0 of the source are exact in either representation.
* Unix timestamps (`created_utc`, `since_timestamp`) are `Int`; the
  ISO-string round-trip through the cursor table
  (`datetime.fromtimestamp(..).isoformat()` / `fromisoformat(..).timestamp()`)
  is the identity on a UTC runtime and is modelled as storing the timestamp
  itself.
* The bounded `while True: pos = text.find(term, start_pos)` loop is embedded
  with an explicit fuel argument (`text.length + 2` suffices, since
  `start_pos` strictly increases and is bounded by `text.length + 1`).
* BigQuery I/O is modelled by explicit state passing: the cursor table is a
  list of appended rows, and fallible reads/writes take an `Except` argument
  describing the underlying client call's outcome.
-/

namespace BrandHealth

/-- Python `str.lower` on one character (ASCII, as in the repo's data). -/
def pyToLower (c : Char) : Char := c.toLower

/-- Python `str.isalnum` on one character (ASCII, as in the repo's data). -/
def pyIsAlnum (c : Char) : Bool := c.isAlphanum

/-- `text.lower()` over a character list. -/
def lowerStr (s : List Char) : List Char := s.map pyToLower

/-- Python whitespace test for `str.strip` (ASCII subset). -/
def pyIsSpace (c : Char) : Bool := c.isWhitespace

/-- Python `text.strip()`: drop leading and trailing whitespace. -/
def pyStrip (s : List Char) : List Char :=
  ((s.dropWhile pyIsSpace).reverse.dropWhile pyIsSpace).reverse

/-- Python slice `t[a:b]` for natural indices (clamping as in Python). -/
def pySlice (t : List Char) (a b : Nat) : List Char :=
  (t.drop a).take (b - a)

/-- Python `min(a, b)` on rationals (kernel-computable, unlike the lattice
`min` of `ℚ`). -/
def pyMin (a b : ℚ) : ℚ := if Rat.blt b a then b else a

/-- Python `t[p:p+len(s)] == s`: `s` occurs in `t` at position `p`. -/
def matchAt (t s : List Char) (p : Nat) : Bool :=
  decide ((t.drop p).take s.length = s)

/-- Python `t.find(s, start)` (first occurrence at index ≥ `start`, `none`
for "-1").  Fuel-based recursion; `fuel ≥ t.length + 1 - start` is enough. -/
def strFind (t s : List Char) : Nat → Nat → Option Nat
  | 0, _ => none
  | fuel + 1, start =>
    if t.length < start + s.length then none
    else if matchAt t s start then some start
    else strFind t s fuel (start + 1)

/-- One recorded occurrence: the `match_info` dict built by
`detect_brand_mentions` (the `'term'`, `'position'`, `'length'`,
`'context'`, `'word_boundary'`, `'confidence'` keys). -/
structure MatchInfo where
  term : String
  position : Nat
  length : Nat
  context : List Char
  word_boundary : Bool
  confidence : ℚ
deriving DecidableEq, Repr

/-- The `is_word_boundary` computation of `detect_brand_mentions`: start from
`true`; an alphanumeric character directly before or directly after the
occurrence clears it. -/
def isWordBoundary (tl : List Char) (pos len : Nat) : Bool :=
  (!(decide (0 < pos) && pyIsAlnum (tl.getD (pos - 1) ' '))) &&
  (!(decide (pos + len < tl.length) && pyIsAlnum (tl.getD (pos + len) ' ')))

/-- Body of the `while True` occurrence loop of `detect_brand_mentions` for a
single term: repeatedly `find` the lowered term in the lowered text from
`start`, apply the word-boundary rule (occurrences of terms of length ≤ 3
that are not boundary-clean are skipped), and record surviving occurrences
with confidence 1.0 (boundary-clean) or 0.7.  `text` is the original text
(used for `'context'`), `tl`/`terml` the lowered text/term. -/
def scanLoop (text tl : List Char) (term : String) (terml : List Char) :
    Nat → Nat → List MatchInfo
  | 0, _ => []
  | fuel + 1, start =>
    match strFind tl terml (tl.length + 1) start with
    | none => []
    | some pos =>
      let wb := isWordBoundary tl pos terml.length
      if terml.length ≤ 3 ∧ wb = false then
        scanLoop text tl term terml fuel (pos + 1)
      else
        { term := term
          position := pos
          length := term.length
          context := pySlice text (pos - 20) (pos + term.length + 20)
          word_boundary := wb
          confidence := if wb then 1 else 0.7 } ::
        scanLoop text tl term terml fuel (pos + 1)

/-- All recorded occurrences of one alias `term` in `text`
(case-insensitive), as produced by the per-term loop of
`detect_brand_mentions`. -/
def scanTerm (text : List Char) (term : String) : List MatchInfo :=
  let tl := lowerStr text
  let terml := lowerStr term.toList
  scanLoop text tl term terml (tl.length + 2) 0

/-- `brand_positions`: concatenation of the per-term scans over a brand's
alias list (the inner `for term in terms` loop). -/
def brandPositions (text : List Char) (terms : List String) : List MatchInfo :=
  (terms.map (fun term => scanTerm text term)).flatten

/-- `brand_matches`: the term of each recorded occurrence (the code appends
to `brand_matches` and `brand_positions` in lockstep). -/
def brandMatches (text : List Char) (terms : List String) : List String :=
  (brandPositions text terms).map (fun m => m.term)

/-- The per-brand confidence blend of `detect_brand_mentions`, computed from
the recorded positions exactly as the source does (`unique_matches`,
`avg_confidence`, `term_specificity`).  Only meaningful when `positions` is
non-empty (the code guards with `if brand_matches:`). -/
def brandConfidence (positions : List MatchInfo) : ℚ :=
  let terms_hit := positions.map (fun m => m.term)
  let unique_matches := terms_hit.dedup
  let avg_confidence :=
    (positions.map (fun m => m.confidence)).sum / positions.length
  let term_specificity :=
    ((unique_matches.map (fun t => t.length)).sum : ℚ) / unique_matches.length
  0.4 * pyMin 1 ((unique_matches.length : ℚ) / 3) +
  0.4 * avg_confidence +
  0.2 * pyMin 1 (term_specificity / 10)

/-- The result dict of `detect_brand_mentions` (without `debug_info`). -/
structure MatchResult where
  brand_id : Option String
  matched_terms : List String
  match_positions : List MatchInfo
  confidence_score : ℚ
deriving DecidableEq, Repr

/-- The zero result of `detect_brand_mentions` (also returned for texts of
stripped length < 2). -/
def detectInit : MatchResult :=
  { brand_id := none, matched_terms := [], match_positions := [],
    confidence_score := 0 }

/-- Body of the `for brand_id, terms in FINANCIAL_BRANDS.items()` loop of
`detect_brand_mentions`: scan the brand's terms and, if this brand has
matches and a confidence strictly above the best so far, make it the
current result.  `matched_terms` is `list(set(brand_matches))`, modelled by
`List.dedup` (first-occurrence order; Python's set order is unspecified). -/
def detectStep (text : List Char) (results : MatchResult)
    (entry : String × List String) : MatchResult :=
  let positions := brandPositions text entry.2
  if positions = [] then results
  else
    let confidence := brandConfidence positions
    if confidence > results.confidence_score then
      { brand_id := some entry.1
        matched_terms := (positions.map (fun m => m.term)).dedup
        match_positions := positions
        confidence_score := confidence }
    else results

/-- `detect_brand_mentions(text)` with the brand table (the module-level
`FINANCIAL_BRANDS` dict) passed explicitly.  Short texts short-circuit to
the zero result (`if not text or len(text.strip()) < 2`); otherwise the
brands are folded in table order. -/
def detect_brand_mentions (brands : List (String × List String))
    (text : List Char) : MatchResult :=
  if (pyStrip text).length < 2 then detectInit
  else brands.foldl (detectStep text) detectInit

/-- The per-brand score as seen by the winner-selection fold: the brand's
confidence when it has recorded occurrences, `0` otherwise. -/
def brandScore (text : List Char) (terms : List String) : ℚ :=
  if brandPositions text terms = [] then 0
  else brandConfidence (brandPositions text terms)

/-- Specification-side predicate: `sl` occurs in `tl` at position `p`
(Python `tl[p:p+len(sl)] == sl` with the occurrence fully inside `tl`,
which is what `str.find` can return). -/
def occB (tl sl : List Char) (p : Nat) : Bool :=
  matchAt tl sl p && decide (p + sl.length ≤ tl.length)

/-- The record that the occurrence loop builds for a surviving occurrence at
position `p` (the `match_info` dict). -/
def mkRecord (text : List Char) (term : String) (tl terml : List Char)
    (p : Nat) : MatchInfo :=
  { term := term
    position := p
    length := term.length
    context := pySlice text (p - 20) (p + term.length + 20)
    word_boundary := isWordBoundary tl p terml.length
    confidence := if isWordBoundary tl p terml.length then 1 else 0.7 }

/-! ## SHA-256 (`hashlib.sha256`), over naturals reduced modulo 2^32 -/

/-- Truncation to a 32-bit word. -/
def w32 (n : Nat) : Nat := n % 4294967296

/-- Right-rotation of a 32-bit word (arithmetic form). -/
def rotr32 (n x : Nat) : Nat := w32 (x / 2 ^ n + x * 2 ^ (32 - n))

/-- Logical right shift. -/
def shr32 (n x : Nat) : Nat := x / 2 ^ n

/-- Bitwise complement within 32 bits. -/
def not32 (x : Nat) : Nat := x ^^^ 4294967295

def sha256Ch (x y z : Nat) : Nat := (x &&& y) ^^^ (not32 x &&& z)

def sha256Maj (x y z : Nat) : Nat := (x &&& y) ^^^ (x &&& z) ^^^ (y &&& z)

def sha256BigS0 (x : Nat) : Nat := rotr32 2 x ^^^ rotr32 13 x ^^^ rotr32 22 x

def sha256BigS1 (x : Nat) : Nat := rotr32 6 x ^^^ rotr32 11 x ^^^ rotr32 25 x

def sha256LitS0 (x : Nat) : Nat := rotr32 7 x ^^^ rotr32 18 x ^^^ shr32 3 x

def sha256LitS1 (x : Nat) : Nat := rotr32 17 x ^^^ rotr32 19 x ^^^ shr32 10 x

/-- The 64 SHA-256 round constants (FIPS 180-4, in decimal). -/
def sha256K : List Nat :=
  [1116352408, 1899447441, 3049323471,
   3921009573, 961987163, 1508970993,
   2453635748, 2870763221, 3624381080,
   310598401, 607225278, 1426881987,
   1925078388, 2162078206, 2614888103,
   3248222580, 3835390401, 4022224774,
   264347078, 604807628, 770255983,
   1249150122, 1555081692, 1996064986,
   2554220882, 2821834349, 2952996808,
   3210313671, 3336571891, 3584528711,
   113926993, 338241895, 666307205,
   773529912, 1294757372, 1396182291,
   1695183700, 1986661051, 2177026350,
   2456956037, 2730485921, 2820302411,
   3259730800, 3345764771, 3516065817,
   3600352804, 4094571909, 275423344,
   430227734, 506948616, 659060556,
   883997877, 958139571, 1322822218,
   1537002063, 1747873779, 1955562222,
   2024104815, 2227730452, 2361852424,
   2428436474, 2756734187, 3204031479,
   3329325298]

/-- The eight working words of the SHA-256 state. -/
structure Hash8 where
  a : Nat
  b : Nat
  c : Nat
  d : Nat
  e : Nat
  f : Nat
  g : Nat
  h : Nat
deriving DecidableEq, Repr

def sha256InitH : Hash8 :=
  ⟨1779033703, 3144134277, 1013904242, 2773480762,
   1359893119, 2600822924, 528734635, 1541459225⟩

/-- `k`-byte big-endian encoding of `n` (modulo 2^(8k)). -/
def toBytesBE : Nat → Nat → List Nat
  | 0, _ => []
  | k + 1, n => toBytesBE k (n / 256) ++ [n % 256]

/-- Big-endian word from a byte list. -/
def bytesToWordBE (b : List Nat) : Nat :=
  b.foldl (fun acc x => acc * 256 + x) 0

/-- SHA-256 padding: append 0x80, zero bytes to 56 mod 64, then the 64-bit
big-endian bit length. -/
def sha256Pad (msg : List Nat) : List Nat :=
  msg ++ [0x80] ++ List.replicate ((119 - msg.length % 64) % 64) 0 ++
    toBytesBE 8 (msg.length * 8)

/-- Split into 64-byte blocks (fuel-based; `fuel ≥ length` suffices). -/
def chunks64 : Nat → List Nat → List (List Nat)
  | 0, _ => []
  | fuel + 1, l => if l = [] then [] else l.take 64 :: chunks64 fuel (l.drop 64)

/-- Extend the 16 block words by `k` further schedule words. -/
def sha256Extend (ws : List Nat) : Nat → List Nat
  | 0 => ws
  | k + 1 =>
    sha256Extend
      (ws ++ [w32 (sha256LitS1 (ws.getD (ws.length - 2) 0) +
        ws.getD (ws.length - 7) 0 +
        sha256LitS0 (ws.getD (ws.length - 15) 0) +
        ws.getD (ws.length - 16) 0)]) k

/-- The 64-word message schedule of one block. -/
def sha256Schedule (block : List Nat) : List Nat :=
  sha256Extend
    ((List.range 16).map (fun i => bytesToWordBE ((block.drop (4 * i)).take 4)))
    48

/-- One SHA-256 round. -/
def sha256Round (st : Hash8) (kw : Nat × Nat) : Hash8 :=
  let t1 := w32 (st.h + sha256BigS1 st.e + sha256Ch st.e st.f st.g +
    kw.1 + kw.2)
  let t2 := w32 (sha256BigS0 st.a + sha256Maj st.a st.b st.c)
  ⟨w32 (t1 + t2), st.a, st.b, st.c, w32 (st.d + t1), st.e, st.f, st.g⟩

/-- Compression of one 64-byte block. -/
def sha256Compress (h0 : Hash8) (block : List Nat) : Hash8 :=
  let t := (sha256K.zip (sha256Schedule block)).foldl sha256Round h0
  ⟨w32 (h0.a + t.a), w32 (h0.b + t.b), w32 (h0.c + t.c), w32 (h0.d + t.d),
   w32 (h0.e + t.e), w32 (h0.f + t.f), w32 (h0.g + t.g), w32 (h0.h + t.h)⟩

/-- The 32-byte SHA-256 digest of a byte string. -/
def sha256Bytes (msg : List Nat) : List Nat :=
  let final := (chunks64 (sha256Pad msg).length (sha256Pad msg)).foldl
    sha256Compress sha256InitH
  toBytesBE 4 final.a ++ toBytesBE 4 final.b ++ toBytesBE 4 final.c ++
  toBytesBE 4 final.d ++ toBytesBE 4 final.e ++ toBytesBE 4 final.f ++
  toBytesBE 4 final.g ++ toBytesBE 4 final.h

/-- Lowercase hexadecimal digit. -/
def hexChar (n : Nat) : Char := "0123456789abcdef".toList.getD n '0'

def byteToHex (b : Nat) : List Char := [hexChar (b / 16), hexChar (b % 16)]

/-- Python `hexdigest()`: lowercase hex of the digest bytes. -/
def hexDigest (bytes : List Nat) : List Char := (bytes.map byteToHex).flatten

/-- UTF-8 encoding of one character (standard 1-4 byte encoding, as
Python's `str.encode('utf-8')`). -/
def utf8EncodeChar (ch : Char) : List Nat :=
  let n := ch.toNat
  if n < 0x80 then [n]
  else if n < 0x800 then
    [0xC0 ||| (n >>> 6), 0x80 ||| (n &&& 0x3F)]
  else if n < 0x10000 then
    [0xE0 ||| (n >>> 12), 0x80 ||| ((n >>> 6) &&& 0x3F), 0x80 ||| (n &&& 0x3F)]
  else
    [0xF0 ||| (n >>> 18), 0x80 ||| ((n >>> 12) &&& 0x3F),
     0x80 ||| ((n >>> 6) &&& 0x3F), 0x80 ||| (n &&& 0x3F)]

/-- `text.encode('utf-8')`. -/
def utf8Encode (s : String) : List Nat :=
  (s.toList.map utf8EncodeChar).flatten

/-- `_generate_content_hash` of `reddit-fetcher/main.py`:
`hashlib.sha256(text.encode('utf-8')).hexdigest()[:16]`. -/
def generateContentHash (text : String) : String :=
  ⟨(hexDigest (sha256Bytes (utf8Encode text))).take 16⟩

/-- `_generate_content_hash` of `reddit-fetcher/main_idempotent.py`
(same code, duplicated module). -/
def generateContentHashIdem (text : String) : String :=
  ⟨(hexDigest (sha256Bytes (utf8Encode text))).take 16⟩

/-! ## Event ids, cursor store, incremental poller -/

/-- `_generate_event_id` of `reddit-fetcher/main.py`. -/
def generateEventId (reddit_type reddit_id : String) : String :=
  if reddit_type = "post" then "reddit_t3_" ++ reddit_id
  else if reddit_type = "comment" then "reddit_t1_" ++ reddit_id
  else "reddit_" ++ reddit_type ++ "_" ++ reddit_id

/-- `_generate_event_id` of `reddit-fetcher/main_idempotent.py`
(same code, duplicated module). -/
def generateEventIdIdem (reddit_type reddit_id : String) : String :=
  if reddit_type = "post" then "reddit_t3_" ++ reddit_id
  else if reddit_type = "comment" then "reddit_t1_" ++ reddit_id
  else "reddit_" ++ reddit_type ++ "_" ++ reddit_id

/-- One row of the append-only `ingest_state` table.  `cursor_iso` is
stored as the event timestamp it encodes: on the UTC cloud runtime the
`fromtimestamp`/`fromisoformat` round-trip of the source is the
identity. -/
structure StateRow where
  source : String
  cursor : Int
  tie_breaker_id : String
deriving DecidableEq, Repr

/-- `IngestionState.get_state`: latest row for the source (`ORDER BY
updated_at DESC LIMIT 1` over append-only inserts = last appended row), or
`(None, None)` when no row exists or the underlying query raises (the
`except` branch).  The BigQuery client call's outcome is the `Except`
argument. -/
def get_state (readRes : Except String Unit) (store : List StateRow)
    (source : String) : Option Int × Option String :=
  match readRes with
  | .error _ => (none, none)
  | .ok _ =>
    match (store.filter (fun r => r.source == source)).getLast? with
    | some row => (some row.cursor, some row.tie_breaker_id)
    | none => (none, none)

/-- `IngestionState.update_state`: append one row; a failing INSERT is
caught and logged (`except ... logger.error`), leaving the table unchanged
and raising nothing — the result type has no error channel. -/
def update_state (writeRes : Except String Unit) (store : List StateRow)
    (row : StateRow) : List StateRow :=
  match writeRes with
  | .ok _ => store ++ [row]
  | .error _ => store

/-- One scanned upstream item (submission or comment) as visited by the
flattened brand/term search loops of
`fetch_incremental_posts_and_comments`.  `brand_id` is the loop's brand
whose term search produced the item. -/
structure SubredditItem where
  reddit_type : String
  id : String
  created_utc : Int
  text : String
  brand_id : String
deriving DecidableEq, Repr

/-- A normalized record (`_process_submission` / `_process_comment`),
trimmed to the claim-relevant fields. -/
structure RawEvent where
  event_id : String
  ts_event : Int
  brand_id : String
  text : String
  content_hash : String
deriving DecidableEq, Repr

/-- The detection gate applied to each scanned item:
`brand_detection['brand_id'] == brand_id and
brand_detection['confidence_score'] > 0.3`. -/
def itemQualifies (brands : List (String × List String))
    (it : SubredditItem) : Bool :=
  let d := detect_brand_mentions brands it.text.toList
  d.brand_id == some it.brand_id && Rat.blt 0.3 d.confidence_score

/-- `_process_submission` / `_process_comment`, trimmed to the fields the
claims concern.  In the pure embedding processing always succeeds (the
source returns `None` only when the Reddit client raises). -/
def processItem (it : SubredditItem) : RawEvent :=
  { event_id := generateEventId it.reddit_type it.id
    ts_event := it.created_utc
    brand_id := it.brand_id
    text := it.text
    content_hash := generateContentHash it.text }

/-- The mutable scan state of `fetch_incremental_posts_and_comments`:
`all_messages`, `max_timestamp`, `max_tie_breaker`. -/
structure ScanState where
  all_messages : List RawEvent
  max_timestamp : Int
  max_tie_breaker : String
deriving DecidableEq, Repr

/-- Per-item body of the scan loops: items older than the window are
skipped; a qualifying item is emitted and advances the
`(max_timestamp, max_tie_breaker)` pair exactly per the source's
comparison (`created_utc > max or (created_utc == max and id > tie)`). -/
def scanStep (brands : List (String × List String)) (since : Int)
    (st : ScanState) (it : SubredditItem) : ScanState :=
  if it.created_utc < since then st
  else if itemQualifies brands it then
    { all_messages := st.all_messages ++ [processItem it]
      max_timestamp :=
        if it.created_utc > st.max_timestamp ∨
            (it.created_utc = st.max_timestamp ∧
              st.max_tie_breaker < it.id) then it.created_utc
        else st.max_timestamp
      max_tie_breaker :=
        if it.created_utc > st.max_timestamp ∨
            (it.created_utc = st.max_timestamp ∧
              st.max_tie_breaker < it.id) then it.id
        else st.max_tie_breaker }
  else st

/-- The whole scan over the flattened item sequence, seeded with
`max_timestamp = since_timestamp` and
`max_tie_breaker = last_tie_breaker or ""`. -/
def scanItems (brands : List (String × List String)) (since : Int)
    (seedTie : String) (items : List SubredditItem) : ScanState :=
  items.foldl (scanStep brands since)
    { all_messages := [], max_timestamp := since, max_tie_breaker := seedTie }

/-- The 2-hour clock-skew overlap window (`overlap_seconds = 2 * 3600`). -/
def overlap_seconds : Int := 2 * 3600

/-- Python truthiness of the `since_timestamp` argument (`None` and `0`
are falsy). -/
def sinceTruthy (sinceArg : Option Int) : Bool :=
  match sinceArg with
  | some v => v != 0
  | none => false

/-- Python `max` on integers (kernel-computable). -/
def pyMaxInt (a b : Int) : Int := if a < b then b else a

/-- The effective-window selection of
`fetch_incremental_posts_and_comments`: explicit (truthy) argument minus
overlap, else persisted cursor minus overlap, else now minus the 7-day
lookback; `initial_fetch` forces the lookback branch. -/
def computeSince (now : Int) (sinceArg : Option Int)
    (lastCursor : Option Int) (initialFetch : Bool) : Int :=
  if sinceTruthy sinceArg && !initialFetch then
    pyMaxInt 0 (sinceArg.getD 0 - overlap_seconds)
  else if lastCursor.isSome && !initialFetch then
    lastCursor.getD 0 - overlap_seconds
  else
    now - 7 * 86400

/-- `limit = 500 if initial_fetch else 100`. -/
def fetchLimit (initialFetch : Bool) : Nat :=
  if initialFetch then 500 else 100

/-- `fetch_incremental_posts_and_comments`, with its collaborators passed
explicitly: the brand table, the upstream search (a function from the
fetch limit to the flattened item sequence the nested loops visit), the
cursor-table state and the outcomes of the BigQuery read/write calls.
Returns the fetched messages and the cursor table after the run. -/
def fetch_incremental_posts_and_comments
    (brands : List (String × List String))
    (search : Nat → List SubredditItem)
    (readRes writeRes : Except String Unit)
    (store : List StateRow) (subreddit_name : String)
    (sinceArg : Option Int) (initialFetch : Bool) (now : Int) :
    List RawEvent × List StateRow :=
  let source_key := "reddit_" ++ subreddit_name
  let st0 := get_state readRes store source_key
  let since := computeSince now sinceArg st0.1 initialFetch
  let final := scanItems brands since (st0.2.getD "")
    (search (fetchLimit initialFetch))
  if final.max_timestamp > since then
    (final.all_messages,
      update_state writeRes store
        { source := source_key, cursor := final.max_timestamp,
          tie_breaker_id := final.max_tie_breaker })
  else (final.all_messages, store)

/-- The items of the scan that pass the window filter and the detection
gate (exactly the emitted ones, since processing is pure). -/
def emittedItems (brands : List (String × List String)) (since : Int)
    (items : List SubredditItem) : List SubredditItem :=
  items.filter (fun it =>
    !decide (it.created_utc < since) && itemQualifies brands it)

/-- Maximum of two integers as the fold of the source's `>` update. -/
def intMax2 (a b : Int) : Int := if a < b then b else a

/-- The native ids of the emitted items sitting at event time `m`. -/
def idsAt (brands : List (String × List String)) (since m : Int)
    (items : List SubredditItem) : List String :=
  ((emittedItems brands since items).filter
    (fun it => it.created_utc == m)).map (fun it => it.id)

/-- Candidate tie-breakers: the starting one (when the maximum did not
advance past it) and the ids of emitted items at the final maximum. -/
def tieCands (brands : List (String × List String)) (since m0 : Int)
    (tie0 : String) (m : Int) (items : List SubredditItem) : List String :=
  (if m = m0 then [tie0] else []) ++ idsAt brands since m items

/-- The effective window of a run. -/
def runSince (readRes : Except String Unit) (store : List StateRow)
    (subreddit_name : String) (sinceArg : Option Int) (initialFetch : Bool)
    (now : Int) : Int :=
  computeSince now sinceArg
    (get_state readRes store ("reddit_" ++ subreddit_name)).1 initialFetch

/-- The scan state at the end of a run. -/
def runScan (brands : List (String × List String))
    (search : Nat → List SubredditItem) (readRes : Except String Unit)
    (store : List StateRow) (subreddit_name : String)
    (sinceArg : Option Int) (initialFetch : Bool) (now : Int) : ScanState :=
  scanItems brands (runSince readRes store subreddit_name sinceArg initialFetch now)
    ((get_state readRes store ("reddit_" ++ subreddit_name)).2.getD "")
    (search (fetchLimit initialFetch))

theorem strFind_some_sound {t s : List Char} {fuel start p : Nat}
    (h : strFind t s fuel start = some p) :
    start ≤ p ∧ occB t s p = true := by
  induction fuel generalizing start with
  | zero => simp [strFind] at h
  | succ fuel ih =>
    rw [strFind] at h
    by_cases hg : t.length < start + s.length
    · simp [hg] at h
    · rw [if_neg hg] at h
      by_cases hm : matchAt t s start
      · rw [if_pos hm] at h
        cases h
        exact ⟨Nat.le_refl _, by simp [occB, hm]; omega⟩
      · rw [if_neg hm] at h
        obtain ⟨h1, h2⟩ := ih h
        exact ⟨by omega, h2⟩

theorem strFind_some_least {t s : List Char} {fuel start p : Nat}
    (h : strFind t s fuel start = some p) :
    ∀ q, start ≤ q → q < p → occB t s q = false := by
  induction fuel generalizing start with
  | zero => simp [strFind] at h
  | succ fuel ih =>
    rw [strFind] at h
    by_cases hg : t.length < start + s.length
    · simp [hg] at h
    · rw [if_neg hg] at h
      by_cases hm : matchAt t s start
      · rw [if_pos hm] at h
        cases h
        intro q hq hq'
        omega
      · rw [if_neg hm] at h
        intro q hq hq'
        rcases Nat.eq_or_lt_of_le hq with rfl | hq2
        · simp [occB, hm]
        · exact ih h q hq2 hq'

theorem strFind_none_complete {t s : List Char} {fuel start : Nat}
    (hfuel : t.length + 1 - start ≤ fuel)
    (h : strFind t s fuel start = none) :
    ∀ p, start ≤ p → occB t s p = false := by
  induction fuel generalizing start with
  | zero =>
    intro p hp
    have : t.length < p + s.length := by omega
    simp [occB, this]
  | succ fuel ih =>
    rw [strFind] at h
    by_cases hg : t.length < start + s.length
    · intro p hp
      have : t.length < p + s.length := by omega
      simp [occB, this]
    · rw [if_neg hg] at h
      by_cases hm : matchAt t s start
      · simp [hm] at h
      · rw [if_neg hm] at h
        intro p hp
        rcases Nat.eq_or_lt_of_le hp with rfl | hp2
        · simp [occB, hm]
        · exact ih (by omega) h p hp2

/-- Soundness of the occurrence loop: every recorded match is the canonical
record of a true occurrence. -/
theorem scanLoop_sound {text tl : List Char} {term : String}
    {terml : List Char} {fuel start : Nat} {m : MatchInfo}
    (h : m ∈ scanLoop text tl term terml fuel start) :
    ∃ p, start ≤ p ∧ occB tl terml p = true ∧
      ¬(terml.length ≤ 3 ∧ isWordBoundary tl p terml.length = false) ∧
      m = mkRecord text term tl terml p := by
  induction fuel generalizing start with
  | zero => simp [scanLoop] at h
  | succ fuel ih =>
    rw [scanLoop] at h
    split at h
    · exact absurd h (List.not_mem_nil _)
    · rename_i pos hf
      dsimp only at h
      obtain ⟨hle, hocc⟩ := strFind_some_sound hf
      split at h
      · rename_i hc
        obtain ⟨p, hp1, hp2, hp3, hp4⟩ := ih h
        exact ⟨p, by omega, hp2, hp3, hp4⟩
      · rename_i hc
        rcases List.mem_cons.mp h with rfl | h'
        · exact ⟨pos, hle, hocc, hc, rfl⟩
        · obtain ⟨p, hp1, hp2, hp3, hp4⟩ := ih h'
          exact ⟨p, by omega, hp2, hp3, hp4⟩

/-- Completeness of the occurrence loop: every true occurrence that the
word-boundary rule does not discard (i.e. every occurrence of a term of
length > 3, and every boundary-clean occurrence of a short term) is
recorded. -/
theorem scanLoop_complete {text tl : List Char} {term : String}
    {terml : List Char} {fuel start p : Nat}
    (hfuel : tl.length + 1 - start < fuel)
    (hstart : start ≤ p)
    (hocc : occB tl terml p = true)
    (hkeep : ¬(terml.length ≤ 3 ∧ isWordBoundary tl p terml.length = false)) :
    mkRecord text term tl terml p ∈ scanLoop text tl term terml fuel start := by
  induction fuel generalizing start with
  | zero => omega
  | succ fuel ih =>
    have hople : p + terml.length ≤ tl.length := by
      have := hocc
      simp [occB] at this
      exact this.2
    rw [scanLoop]
    split
    · rename_i hf
      have := strFind_none_complete (by omega) hf p hstart
      rw [hocc] at this
      cases this
    · rename_i pos hf
      dsimp only
      obtain ⟨hle, hoccpos⟩ := strFind_some_sound hf
      have hpople : pos + terml.length ≤ tl.length := by
        have := hoccpos
        simp [occB] at this
        exact this.2
      have hpos_le_p : pos ≤ p := by
        by_contra hcon
        have := strFind_some_least hf p hstart (by omega)
        rw [hocc] at this
        cases this
      rcases Nat.eq_or_lt_of_le hpos_le_p with rfl | hlt
      · rw [if_neg hkeep]
        exact List.mem_cons_self _ _
      · by_cases hc : terml.length ≤ 3 ∧ isWordBoundary tl pos terml.length = false
        · rw [if_pos hc]
          exact ih (by omega) (by omega)
        · rw [if_neg hc]
          exact List.mem_cons_of_mem _ (ih (by omega) (by omega))

/-- `scanTerm` membership, soundness direction. -/
theorem scanTerm_sound {text : List Char} {term : String} {m : MatchInfo}
    (h : m ∈ scanTerm text term) :
    ∃ p, occB (lowerStr text) (lowerStr term.toList) p = true ∧
      ¬((lowerStr term.toList).length ≤ 3 ∧
          isWordBoundary (lowerStr text) p (lowerStr term.toList).length = false) ∧
      m = mkRecord text term (lowerStr text) (lowerStr term.toList) p := by
  obtain ⟨p, _, h2, h3, h4⟩ := scanLoop_sound h
  exact ⟨p, h2, h3, h4⟩

/-- `scanTerm` membership, completeness direction. -/
theorem scanTerm_complete {text : List Char} {term : String} {p : Nat}
    (hocc : occB (lowerStr text) (lowerStr term.toList) p = true)
    (hkeep : ¬((lowerStr term.toList).length ≤ 3 ∧
        isWordBoundary (lowerStr text) p (lowerStr term.toList).length = false)) :
    mkRecord text term (lowerStr text) (lowerStr term.toList) p ∈
      scanTerm text term := by
  unfold scanTerm
  exact scanLoop_complete (by omega) (Nat.zero_le _) hocc hkeep

/-- Membership in a brand's recorded positions comes from scanning one of
its alias terms. -/
theorem brandPositions_mem {text : List Char} {terms : List String}
    {m : MatchInfo} (h : m ∈ brandPositions text terms) :
    ∃ term ∈ terms, m ∈ scanTerm text term := by
  unfold brandPositions at h
  rw [List.mem_flatten] at h
  obtain ⟨l, hl, hm⟩ := h
  rw [List.mem_map] at hl
  obtain ⟨term, ht, rfl⟩ := hl
  exact ⟨term, ht, hm⟩

/-- A recorded occurrence of any alias of a brand is in the brand's
positions. -/
theorem brandPositions_of_scanTerm {text : List Char} {terms : List String}
    {term : String} (ht : term ∈ terms) {m : MatchInfo}
    (hm : m ∈ scanTerm text term) : m ∈ brandPositions text terms := by
  unfold brandPositions
  rw [List.mem_flatten]
  exact ⟨scanTerm text term, List.mem_map_of_mem _ ht, hm⟩

/-- Every recorded per-match confidence is 1 or 0.7. -/
theorem brandPositions_confidence {text : List Char} {terms : List String}
    {m : MatchInfo} (h : m ∈ brandPositions text terms) :
    m.confidence = 1 ∨ m.confidence = 0.7 := by
  obtain ⟨term, _, hm⟩ := brandPositions_mem h
  obtain ⟨p, _, _, rfl⟩ := scanTerm_sound hm
  cases hb : isWordBoundary (lowerStr text) p (lowerStr term.toList).length
  · right
    show (if isWordBoundary (lowerStr text) p (lowerStr term.toList).length
        then (1 : ℚ) else 0.7) = 0.7
    rw [hb]
    simp
  · left
    show (if isWordBoundary (lowerStr text) p (lowerStr term.toList).length
        then (1 : ℚ) else 0.7) = 1
    rw [hb]
    simp

/-- C1.  The word-boundary rule of `detect_brand_mentions`: every recorded
match sits at a real case-insensitive occurrence and carries confidence 1.0
for a boundary-clean occurrence and 0.7 otherwise; a non-boundary occurrence
of an alias of length ≤ 3 is discarded entirely (it appears in no brand's
match positions); a non-boundary occurrence of an alias of length > 3 is
still recorded, with confidence 0.7. -/
theorem short_alias_boundary_rule (text : List Char) (term : String) :
    (∀ m ∈ scanTerm text term,
        occB (lowerStr text) (lowerStr term.toList) m.position = true ∧
        m.word_boundary =
          isWordBoundary (lowerStr text) m.position (lowerStr term.toList).length ∧
        m.confidence = (if m.word_boundary then (1 : ℚ) else 0.7)) ∧
    (∀ (terms : List String) (p : Nat),
        (lowerStr term.toList).length ≤ 3 →
        isWordBoundary (lowerStr text) p (lowerStr term.toList).length = false →
        ∀ m ∈ brandPositions text terms, ¬(m.term = term ∧ m.position = p)) ∧
    (∀ (terms : List String) (p : Nat), term ∈ terms →
        3 < (lowerStr term.toList).length →
        occB (lowerStr text) (lowerStr term.toList) p = true →
        ∃ m ∈ brandPositions text terms, m.term = term ∧ m.position = p ∧
          m.confidence =
            (if isWordBoundary (lowerStr text) p (lowerStr term.toList).length
              then (1 : ℚ) else 0.7)) := by
  refine ⟨?_, ?_, ?_⟩
  · intro m hm
    obtain ⟨p, hocc, _, rfl⟩ := scanTerm_sound hm
    exact ⟨hocc, rfl, rfl⟩
  · intro terms p hshort hnb m hm hcon
    obtain ⟨term', ht', hm'⟩ := brandPositions_mem hm
    obtain ⟨p', _, hkeep, rfl⟩ := scanTerm_sound hm'
    have hterm : term' = term := hcon.1
    have hpos : p' = p := hcon.2
    subst hterm
    subst hpos
    exact hkeep ⟨hshort, hnb⟩
  · intro terms p ht hlong hocc
    have hkeep : ¬((lowerStr term.toList).length ≤ 3 ∧
        isWordBoundary (lowerStr text) p (lowerStr term.toList).length = false) := by
      intro hcon
      omega
    exact ⟨mkRecord text term (lowerStr text) (lowerStr term.toList) p,
      brandPositions_of_scanTerm ht (scanTerm_complete hocc hkeep), rfl, rfl, rfl⟩

/-- Witness for the boundary rule at concrete inputs: the non-boundary
occurrence of the long alias "Arial Bank" at position 1 of "xArial Banky" is
recorded with confidence 0.7. -/
theorem short_alias_boundary_rule_witness :
    ∃ m ∈ brandPositions ("xArial Banky".toList) ["Arial Bank"],
      m.term = "Arial Bank" ∧ m.position = 1 ∧
      m.confidence =
        (if isWordBoundary (lowerStr ("xArial Banky".toList)) 1
            (lowerStr ("Arial Bank".toList)).length
          then (1 : ℚ) else 0.7) :=
  (short_alias_boundary_rule ("xArial Banky".toList) "Arial Bank").2.2
    ["Arial Bank"] 1 (by decide) (by decide) (by decide)

theorem pyMin_le_left (a b : ℚ) : pyMin a b ≤ a := by
  unfold pyMin
  split
  · rename_i h
    exact le_of_lt h
  · exact le_refl a

theorem pyMin_nonneg {a b : ℚ} (ha : 0 ≤ a) (hb : 0 ≤ b) : 0 ≤ pyMin a b := by
  unfold pyMin
  split
  · exact hb
  · exact ha

theorem conf_sum_lower {positions : List MatchInfo}
    (h : ∀ m ∈ positions, m.confidence = 1 ∨ m.confidence = 0.7) :
    (positions.length : ℚ) * 0.7 ≤
      (positions.map (fun m => m.confidence)).sum := by
  induction positions with
  | nil => simp
  | cons m rest ih =>
    simp only [List.map_cons, List.sum_cons, List.length_cons]
    have h1 := h m (List.mem_cons_self m rest)
    have h2 := ih (fun x hx => h x (List.mem_cons_of_mem m hx))
    push_cast
    rcases h1 with h1 | h1 <;> rw [h1] <;> linarith

theorem conf_sum_upper {positions : List MatchInfo}
    (h : ∀ m ∈ positions, m.confidence = 1 ∨ m.confidence = 0.7) :
    (positions.map (fun m => m.confidence)).sum ≤ (positions.length : ℚ) := by
  induction positions with
  | nil => simp
  | cons m rest ih =>
    simp only [List.map_cons, List.sum_cons, List.length_cons]
    have h1 := h m (List.mem_cons_self m rest)
    have h2 := ih (fun x hx => h x (List.mem_cons_of_mem m hx))
    push_cast
    rcases h1 with h1 | h1 <;> rw [h1] <;> linarith

/-- The confidence blend, with the `let`s of the source spelled out. -/
theorem brandConfidence_eq (positions : List MatchInfo) :
    brandConfidence positions =
      0.4 * pyMin 1 (((positions.map (fun m => m.term)).dedup.length : ℚ) / 3) +
      0.4 * ((positions.map (fun m => m.confidence)).sum / positions.length) +
      0.2 * pyMin 1
        ((((positions.map (fun m => m.term)).dedup.map
            (fun t => t.length)).sum : ℚ) /
          ((positions.map (fun m => m.term)).dedup.length) / 10) := rfl

/-- For a brand with at least one recorded occurrence, the blended
confidence lies in [0.28, 1] (each summand is bounded; the middle one is at
least `0.4 * 0.7` because every per-match confidence is 1 or 0.7). -/
theorem brandConfidence_bounds {positions : List MatchInfo}
    (hne : positions ≠ [])
    (h : ∀ m ∈ positions, m.confidence = 1 ∨ m.confidence = 0.7) :
    0.28 ≤ brandConfidence positions ∧ brandConfidence positions ≤ 1 := by
  rw [brandConfidence_eq]
  have hnpos : 0 < (positions.length : ℚ) := by
    have := List.length_pos.mpr hne
    exact_mod_cast this
  have hsum_lo := conf_sum_lower h
  have hsum_hi := conf_sum_upper h
  have havg_lo : (0.7 : ℚ) ≤
      (positions.map (fun m => m.confidence)).sum / positions.length := by
    rw [le_div_iff hnpos]
    linarith
  have havg_hi :
      (positions.map (fun m => m.confidence)).sum / positions.length ≤ 1 := by
    rw [div_le_one hnpos]
    linarith
  have hA0 : (0 : ℚ) ≤
      pyMin 1 (((positions.map (fun m => m.term)).dedup.length : ℚ) / 3) :=
    pyMin_nonneg (by norm_num) (by positivity)
  have hA1 := pyMin_le_left 1
    (((positions.map (fun m => m.term)).dedup.length : ℚ) / 3)
  have hC0 : (0 : ℚ) ≤ pyMin 1
      ((((positions.map (fun m => m.term)).dedup.map
          (fun t => t.length)).sum : ℚ) /
        ((positions.map (fun m => m.term)).dedup.length) / 10) :=
    pyMin_nonneg (by norm_num)
      (div_nonneg
        (div_nonneg
          (List.sum_nonneg (by
            intro x hx
            rw [List.mem_map] at hx
            obtain ⟨t, _, rfl⟩ := hx
            exact Nat.cast_nonneg _))
          (Nat.cast_nonneg _))
        (by norm_num))
  have hC1 := pyMin_le_left 1
    ((((positions.map (fun m => m.term)).dedup.map
        (fun t => t.length)).sum : ℚ) /
      ((positions.map (fun m => m.term)).dedup.length) / 10)
  constructor <;> linarith

/-- One step of the winner-selection fold either keeps the accumulator or
installs the current brand's full outcome (when it has matches and a
strictly higher confidence). -/
theorem detectStep_cases (text : List Char) (acc : MatchResult)
    (e : String × List String) :
    detectStep text acc e = acc ∨
      (brandPositions text e.2 ≠ [] ∧
        acc.confidence_score < brandConfidence (brandPositions text e.2) ∧
        detectStep text acc e =
          { brand_id := some e.1
            matched_terms := ((brandPositions text e.2).map (fun m => m.term)).dedup
            match_positions := brandPositions text e.2
            confidence_score := brandConfidence (brandPositions text e.2) }) := by
  unfold detectStep
  by_cases hpos : brandPositions text e.2 = []
  · left
    simp [hpos]
  · rw [if_neg hpos]
    by_cases hconf :
        brandConfidence (brandPositions text e.2) > acc.confidence_score
    · right
      exact ⟨hpos, hconf, by rw [if_pos hconf]⟩
    · left
      rw [if_neg hconf]

/-- A step never updates when the brand's score does not strictly exceed
the accumulator's confidence. -/
theorem detectStep_no_update {text : List Char} {acc : MatchResult}
    {e : String × List String}
    (h : brandScore text e.2 ≤ acc.confidence_score) :
    detectStep text acc e = acc := by
  unfold detectStep brandScore at *
  by_cases hpos : brandPositions text e.2 = []
  · simp [hpos]
  · rw [if_neg hpos]
    rw [if_neg hpos] at h
    rw [if_neg (not_lt.mpr h)]

/-- After the fold, the confidence score is either the initial one or the
blended confidence of some brand of the table that has matches. -/
theorem foldl_conf_cases (text : List Char) :
    ∀ (l : List (String × List String)) (acc : MatchResult),
      (l.foldl (detectStep text) acc).confidence_score = acc.confidence_score ∨
      ∃ e ∈ l, brandPositions text e.2 ≠ [] ∧
        (l.foldl (detectStep text) acc).confidence_score =
          brandConfidence (brandPositions text e.2) := by
  intro l
  induction l with
  | nil => intro acc; left; rfl
  | cons e l ih =>
    intro acc
    rw [List.foldl_cons]
    rcases detectStep_cases text acc e with hstep | ⟨hne, _, hstep⟩
    · rw [hstep]
      rcases ih acc with h | ⟨e', he', hne', hval⟩
      · left; exact h
      · right; exact ⟨e', List.mem_cons_of_mem _ he', hne', hval⟩
    · rw [hstep]
      rcases ih _ with h | ⟨e', he', hne', hval⟩
      · right
        refine ⟨e, List.mem_cons_self _ _, hne, ?_⟩
        rw [h]
      · right; exact ⟨e', List.mem_cons_of_mem _ he', hne', hval⟩

/-- The reported `confidence_score` of `detect_brand_mentions` always lies
in [0, 1]. -/
theorem detect_confidence_in_unit (brands : List (String × List String))
    (text : List Char) :
    0 ≤ (detect_brand_mentions brands text).confidence_score ∧
      (detect_brand_mentions brands text).confidence_score ≤ 1 := by
  unfold detect_brand_mentions
  split
  · exact ⟨le_refl 0, by norm_num [detectInit]⟩
  · rcases foldl_conf_cases text brands detectInit with h | ⟨e, _, hne, hval⟩
    · rw [h]
      exact ⟨le_refl 0, by norm_num [detectInit]⟩
    · rw [hval]
      have := brandConfidence_bounds hne
        (fun m hm => brandPositions_confidence hm)
      constructor <;> linarith [this.1, this.2]

/-- C2.  The per-brand confidence of the Term Matcher is the weighted blend
`0.4·min(1, distinct/3) + 0.4·mean(per-match confidence) +
0.2·min(1, mean(term length)/10)` computed over the brand's recorded
occurrences, and the resulting `confidence_score` of a detection always
lies in [0, 1]. -/
theorem confidence_blend_formula (text : List Char) (terms : List String)
    (hne : brandPositions text terms ≠ []) :
    brandConfidence (brandPositions text terms) =
      0.4 * pyMin 1 (((brandMatches text terms).dedup.length : ℚ) / 3) +
      0.4 * (((brandPositions text terms).map (fun m => m.confidence)).sum /
        (brandPositions text terms).length) +
      0.2 * pyMin 1
        ((((brandMatches text terms).dedup.map (fun t => t.length)).sum : ℚ) /
          ((brandMatches text terms).dedup.length) / 10) ∧
    0 ≤ brandConfidence (brandPositions text terms) ∧
    brandConfidence (brandPositions text terms) ≤ 1 ∧
    ∀ brands : List (String × List String),
      0 ≤ (detect_brand_mentions brands text).confidence_score ∧
        (detect_brand_mentions brands text).confidence_score ≤ 1 := by
  have hb := brandConfidence_bounds hne
    (fun m hm => brandPositions_confidence hm)
  refine ⟨brandConfidence_eq _, by linarith [hb.1], hb.2, ?_⟩
  intro brands
  exact detect_confidence_in_unit brands text

/-- Witness for the confidence blend at a concrete input: one distinct
matched term ("TD", boundary-clean, so per-match confidence 1), giving
`0.4·min(1,1/3) + 0.4·1 + 0.2·min(1,0.2) = 43/75`. -/
theorem confidence_blend_formula_witness :
    brandConfidence (brandPositions ("I use TD daily".toList) ["TD"]) =
      0.4 * pyMin 1 (((brandMatches ("I use TD daily".toList) ["TD"]).dedup.length : ℚ) / 3) +
      0.4 * (((brandPositions ("I use TD daily".toList) ["TD"]).map (fun m => m.confidence)).sum /
        (brandPositions ("I use TD daily".toList) ["TD"]).length) +
      0.2 * pyMin 1
        ((((brandMatches ("I use TD daily".toList) ["TD"]).dedup.map (fun t => t.length)).sum : ℚ) /
          ((brandMatches ("I use TD daily".toList) ["TD"]).dedup.length) / 10) ∧
    0 ≤ brandConfidence (brandPositions ("I use TD daily".toList) ["TD"]) ∧
    brandConfidence (brandPositions ("I use TD daily".toList) ["TD"]) ≤ 1 ∧
    ∀ brands : List (String × List String),
      0 ≤ (detect_brand_mentions brands ("I use TD daily".toList)).confidence_score ∧
        (detect_brand_mentions brands ("I use TD daily".toList)).confidence_score ≤ 1 :=
  confidence_blend_formula ("I use TD daily".toList) ["TD"]
    (by with_unfolding_all decide)

theorem brandConfidence_pos {text : List Char} {terms : List String}
    (hne : brandPositions text terms ≠ []) :
    0 < brandConfidence (brandPositions text terms) := by
  have := brandConfidence_bounds hne (fun m hm => brandPositions_confidence hm)
  linarith [this.1]

/-- A case-matched occurrence is also a case-insensitive occurrence of the
lowered term in the lowered text (lowering is position-preserving). -/
theorem occB_of_exact {text : List Char} {term : String} {p : Nat}
    (h1 : (text.drop p).take term.toList.length = term.toList)
    (h2 : p + term.toList.length ≤ text.length) :
    occB (lowerStr text) (lowerStr term.toList) p = true := by
  unfold occB matchAt lowerStr
  rw [Bool.and_eq_true]
  refine ⟨?_, ?_⟩
  · rw [decide_eq_true_iff, List.length_map, ← List.map_drop, ← List.map_take,
      h1]
  · rw [decide_eq_true_iff, List.length_map, List.length_map]
    exact h2

/-- If no alias of a brand occurs in the text (case-insensitively), the
brand records no positions. -/
theorem brandPositions_eq_nil {text : List Char} {terms : List String}
    (h : ∀ term ∈ terms, ∀ q,
      occB (lowerStr text) (lowerStr term.toList) q = false) :
    brandPositions text terms = [] := by
  rw [List.eq_nil_iff_forall_not_mem]
  intro m hm
  obtain ⟨term, ht, hm'⟩ := brandPositions_mem hm
  obtain ⟨p, hocc, _, _⟩ := scanTerm_sound hm'
  rw [h term ht p] at hocc
  cases hocc

/-- A brand with no recorded positions scores zero. -/
theorem brandScore_eq_zero {text : List Char} {terms : List String}
    (h : brandPositions text terms = []) : brandScore text terms = 0 := by
  unfold brandScore
  rw [if_pos h]

/-- A brand with recorded positions scores its blended confidence. -/
theorem brandScore_of_ne_nil {text : List Char} {terms : List String}
    (h : brandPositions text terms ≠ []) :
    brandScore text terms = brandConfidence (brandPositions text terms) := by
  unfold brandScore
  rw [if_neg h]

theorem detectStep_update {text : List Char} {acc : MatchResult}
    {e : String × List String}
    (hne : brandPositions text e.2 ≠ [])
    (hgt : acc.confidence_score < brandConfidence (brandPositions text e.2)) :
    detectStep text acc e =
      { brand_id := some e.1
        matched_terms := ((brandPositions text e.2).map (fun m => m.term)).dedup
        match_positions := brandPositions text e.2
        confidence_score := brandConfidence (brandPositions text e.2) } := by
  unfold detectStep
  rw [if_neg hne, if_pos hgt]

/-- The fold is inert over a run of brands whose scores never strictly beat
the current confidence. -/
theorem foldl_no_update (text : List Char) :
    ∀ (l : List (String × List String)) (acc : MatchResult),
      (∀ e ∈ l, brandScore text e.2 ≤ acc.confidence_score) →
      l.foldl (detectStep text) acc = acc := by
  intro l
  induction l with
  | nil => intro acc _; rfl
  | cons e l ih =>
    intro acc h
    rw [List.foldl_cons,
      detectStep_no_update (h e (List.mem_cons_self _ _))]
    exact ih acc (fun e' he' => h e' (List.mem_cons_of_mem _ he'))

/-- The best confidence seen so far never decreases along the fold. -/
theorem foldl_conf_mono (text : List Char) :
    ∀ (l : List (String × List String)) (acc : MatchResult),
      acc.confidence_score ≤
        (l.foldl (detectStep text) acc).confidence_score := by
  intro l
  induction l with
  | nil => intro acc; exact le_refl _
  | cons e l ih =>
    intro acc
    rw [List.foldl_cons]
    rcases detectStep_cases text acc e with hstep | ⟨_, hlt, hstep⟩
    · rw [hstep]; exact ih acc
    · rw [hstep]
      exact le_trans (le_of_lt hlt) (ih _)

/-- Over brands whose aliases never match unless the brand is `b`, the fold
leaves the accumulator at the zero result or at a positive-confidence
result for `b`. -/
theorem foldl_only_b (text : List Char) (b : String) :
    ∀ (l : List (String × List String)) (acc : MatchResult),
      (∀ e ∈ l, e.1 ≠ b → brandPositions text e.2 = []) →
      (acc = detectInit ∨
        (acc.brand_id = some b ∧ 0 < acc.confidence_score)) →
      (l.foldl (detectStep text) acc = detectInit ∨
        ((l.foldl (detectStep text) acc).brand_id = some b ∧
          0 < (l.foldl (detectStep text) acc).confidence_score)) := by
  intro l
  induction l with
  | nil => intro acc _ hacc; exact hacc
  | cons e l ih =>
    intro acc h hacc
    rw [List.foldl_cons]
    rcases detectStep_cases text acc e with hstep | ⟨hne, _, hstep⟩
    · rw [hstep]
      exact ih acc (fun e' he' => h e' (List.mem_cons_of_mem _ he')) hacc
    · rw [hstep]
      have hb : e.1 = b := by
        by_contra hcon
        exact hne (h e (List.mem_cons_self _ _) hcon)
      refine ih _ (fun e' he' => h e' (List.mem_cons_of_mem _ he')) ?_
      right
      exact ⟨by rw [hb], brandConfidence_pos hne⟩

/-- C3.  At most one brand is reported: the brand with the strictly highest
per-brand confidence becomes the result; `brand_id` is `None` when no brand
scores above zero; and a text containing an exact, case-matched,
boundary-clean alias of brand `b` and no alias occurrence of any other
brand (with at least 2 non-whitespace-stripped characters, the matcher's
minimum-length gate) is detected as `b` with positive confidence. -/
theorem highest_confidence_wins (brands : List (String × List String))
    (text : List Char) :
    (∀ (l1 l2 : List (String × List String)) (b : String) (ts : List String),
        brands = l1 ++ (b, ts) :: l2 →
        0 < brandScore text ts →
        (∀ e ∈ l1 ++ l2, brandScore text e.2 < brandScore text ts) →
        2 ≤ (pyStrip text).length →
        (detect_brand_mentions brands text).brand_id = some b ∧
        (detect_brand_mentions brands text).confidence_score =
          brandScore text ts) ∧
    ((∀ e ∈ brands, brandScore text e.2 = 0) →
        (detect_brand_mentions brands text).brand_id = none) ∧
    (∀ (l1 l2 : List (String × List String)) (b : String) (ts : List String)
        (term : String) (p : Nat),
        brands = l1 ++ (b, ts) :: l2 → term ∈ ts →
        (text.drop p).take term.toList.length = term.toList →
        p + term.toList.length ≤ text.length →
        isWordBoundary (lowerStr text) p (lowerStr term.toList).length = true →
        (∀ e ∈ brands, e.1 ≠ b → ∀ term' ∈ e.2, ∀ q,
            occB (lowerStr text) (lowerStr term'.toList) q = false) →
        2 ≤ (pyStrip text).length →
        (detect_brand_mentions brands text).brand_id = some b ∧
        0 < (detect_brand_mentions brands text).confidence_score) := by
  refine ⟨?_, ?_, ?_⟩
  · intro l1 l2 b ts hsplit hpos hmax hlen
    unfold detect_brand_mentions
    rw [if_neg (not_lt.mpr hlen), hsplit, List.foldl_append, List.foldl_cons]
    have hts_ne : brandPositions text ts ≠ [] := by
      intro hcon
      rw [brandScore_eq_zero hcon] at hpos
      exact lt_irrefl 0 hpos
    have hts_val := brandScore_of_ne_nil hts_ne
    have hacc1 : (l1.foldl (detectStep text) detectInit).confidence_score <
        brandScore text ts := by
      rcases foldl_conf_cases text l1 detectInit with h | ⟨e, he, hne, hval⟩
      · rw [h]
        exact hpos
      · rw [hval, ← brandScore_of_ne_nil hne]
        exact hmax e (List.mem_append_left _ he)
    rw [detectStep_update hts_ne (by rw [← hts_val]; exact hacc1)]
    rw [foldl_no_update text l2 _ (by
      intro e he
      have := hmax e (List.mem_append_right _ he)
      dsimp only
      rw [← hts_val]
      exact le_of_lt this)]
    exact ⟨rfl, by dsimp only; rw [← hts_val]⟩
  · intro hzero
    unfold detect_brand_mentions
    split
    · rfl
    · rw [foldl_no_update text brands detectInit (by
        intro e he
        rw [hzero e he]
        exact le_refl _)]
      rfl
  · intro l1 l2 b ts term p hsplit ht hdrop hplen hwb hother hlen
    have hts_ne : brandPositions text ts ≠ [] := by
      have hocc := occB_of_exact hdrop hplen
      have hkeep : ¬((lowerStr term.toList).length ≤ 3 ∧
          isWordBoundary (lowerStr text) p (lowerStr term.toList).length
            = false) := by
        intro hcon
        rw [hwb] at hcon
        exact Bool.noConfusion hcon.2
      exact List.ne_nil_of_mem
        (brandPositions_of_scanTerm ht (scanTerm_complete hocc hkeep))
    unfold detect_brand_mentions
    rw [if_neg (not_lt.mpr hlen), hsplit, List.foldl_append, List.foldl_cons]
    have hl1 : ∀ e ∈ l1, e.1 ≠ b → brandPositions text e.2 = [] := by
      intro e he hne
      exact brandPositions_eq_nil
        (hother e (by rw [hsplit]; exact List.mem_append_left _ he) hne)
    have hl2 : ∀ e ∈ l2, e.1 ≠ b → brandPositions text e.2 = [] := by
      intro e he hne
      refine brandPositions_eq_nil
        (hother e ?_ hne)
      rw [hsplit]
      exact List.mem_append_right _ (List.mem_cons_of_mem _ he)
    have hacc1 := foldl_only_b text b l1 detectInit hl1 (Or.inl rfl)
    have hafter : ((detectStep text (l1.foldl (detectStep text) detectInit)
          (b, ts)).brand_id = some b ∧
        0 < (detectStep text (l1.foldl (detectStep text) detectInit)
          (b, ts)).confidence_score) := by
      rcases hacc1 with hinit | ⟨hb, hconf⟩
      · rw [hinit]
        rw [detectStep_update hts_ne (by
          show detectInit.confidence_score < _
          exact brandConfidence_pos hts_ne)]
        exact ⟨rfl, brandConfidence_pos hts_ne⟩
      · rcases detectStep_cases text (l1.foldl (detectStep text) detectInit)
          (b, ts) with hstep | ⟨hne, _, hstep⟩
        · rw [hstep]
          exact ⟨hb, hconf⟩
        · rw [hstep]
          exact ⟨rfl, brandConfidence_pos hts_ne⟩
    rcases foldl_only_b text b l2 _ hl2 (Or.inr hafter) with hinit | hgood
    · exfalso
      have hmono := foldl_conf_mono text l2
        (detectStep text (l1.foldl (detectStep text) detectInit) (b, ts))
      rw [hinit] at hmono
      have hpos2 := hafter.2
      have h0 : detectInit.confidence_score = (0 : ℚ) := rfl
      rw [h0] at hmono
      linarith
    · exact hgood

theorem occB_out_of_range {tl sl : List Char} {q : Nat}
    (h : tl.length < q + sl.length) : occB tl sl q = false := by
  have h2 : ¬(q + sl.length ≤ tl.length) := by omega
  simp [occB, h2]

/-- Absence of occurrences below the text length implies absence
everywhere (positions past the end can never carry an occurrence). -/
theorem occB_false_of_bounded {tl sl : List Char}
    (h : ∀ q < tl.length + 1, occB tl sl q = false) :
    ∀ q, occB tl sl q = false := by
  intro q
  by_cases hq : q < tl.length + 1
  · exact h q hq
  · exact occB_out_of_range (by omega)

/-- Witness for the winner selection at a concrete input: "I use TD daily"
with the exact boundary-clean alias "TD" of `td_bank` at offset 6, and no
occurrence of the other brand's alias "Acme". -/
theorem highest_confidence_wins_witness :
    (detect_brand_mentions [("td_bank", ["TD"]), ("acme", ["Acme"])]
        ("I use TD daily".toList)).brand_id = some "td_bank" ∧
    0 < (detect_brand_mentions [("td_bank", ["TD"]), ("acme", ["Acme"])]
        ("I use TD daily".toList)).confidence_score :=
  (highest_confidence_wins [("td_bank", ["TD"]), ("acme", ["Acme"])]
      ("I use TD daily".toList)).2.2 [] [("acme", ["Acme"])] "td_bank" ["TD"]
    "TD" 6 rfl (by decide) (by decide) (by decide) (by decide)
    (by
      intro e he hne term' ht'
      fin_cases he
      · exact absurd rfl hne
      · fin_cases ht'
        exact occB_false_of_bounded (by decide))
    (by decide)

/-- C4, counterexample.  For the spec's scenario (alias set
`{"td_bank": ["TD Bank", "TD"]}`, text
`"I love TD Bank's app but standard procedures are slow"`), the matcher
does NOT return `matched_terms = {"TD Bank"}`: the standalone occurrence of
"TD" at offset 7 (inside "TD Bank's") is boundary-clean — it is followed by
a space — so the short-alias rule keeps it and "TD" is also a matched
term. -/
theorem td_scenario_counterexample :
    (detect_brand_mentions [("td_bank", ["TD Bank", "TD"])]
        ("I love TD Bank's app but standard procedures are slow".toList)).matched_terms
      ≠ ["TD Bank"] ∧
    "TD" ∈ (detect_brand_mentions [("td_bank", ["TD Bank", "TD"])]
        ("I love TD Bank's app but standard procedures are slow".toList)).matched_terms := by
  constructor
  · with_unfolding_all decide
  · with_unfolding_all decide

/-- C4, amended.  The scenario yields the single brand `td_bank`; the only
recorded occurrences sit at offset 7 (so nothing inside "standard", which
in fact contains no "td" substring, contributes); and `matched_terms` is
exactly {"TD Bank", "TD"} — the boundary-clean standalone "TD" is kept. -/
theorem td_scenario_amended :
    (detect_brand_mentions [("td_bank", ["TD Bank", "TD"])]
        ("I love TD Bank's app but standard procedures are slow".toList)).brand_id
      = some "td_bank" ∧
    (detect_brand_mentions [("td_bank", ["TD Bank", "TD"])]
        ("I love TD Bank's app but standard procedures are slow".toList)).matched_terms
      = ["TD Bank", "TD"] ∧
    ((detect_brand_mentions [("td_bank", ["TD Bank", "TD"])]
        ("I love TD Bank's app but standard procedures are slow".toList)).match_positions.map
      (fun m => m.position)) = [7, 7] ∧
    (detect_brand_mentions [("td_bank", ["TD Bank", "TD"])]
        ("I love TD Bank's app but standard procedures are slow".toList)).confidence_score
      = 227 / 300 := by
  refine ⟨?_, ?_, ?_, ?_⟩ <;> with_unfolding_all decide


theorem scanStep_skip {brands : List (String × List String)} {since : Int}
    {st : ScanState} {it : SubredditItem} (h : it.created_utc < since) :
    scanStep brands since st it = st := by
  unfold scanStep
  rw [if_pos h]

theorem scanStep_no_gate {brands : List (String × List String)} {since : Int}
    {st : ScanState} {it : SubredditItem} (h1 : ¬it.created_utc < since)
    (h2 : itemQualifies brands it = false) :
    scanStep brands since st it = st := by
  unfold scanStep
  rw [if_neg h1, h2]
  rfl

theorem scanStep_emit_adv {brands : List (String × List String)} {since : Int}
    {st : ScanState} {it : SubredditItem} (h1 : ¬it.created_utc < since)
    (h2 : itemQualifies brands it = true)
    (h3 : it.created_utc > st.max_timestamp ∨
      (it.created_utc = st.max_timestamp ∧ st.max_tie_breaker < it.id)) :
    scanStep brands since st it =
      { all_messages := st.all_messages ++ [processItem it]
        max_timestamp := it.created_utc
        max_tie_breaker := it.id } := by
  unfold scanStep
  rw [if_neg h1, h2, if_pos rfl, if_pos h3, if_pos h3]

theorem scanStep_emit_keep {brands : List (String × List String)} {since : Int}
    {st : ScanState} {it : SubredditItem} (h1 : ¬it.created_utc < since)
    (h2 : itemQualifies brands it = true)
    (h3 : ¬(it.created_utc > st.max_timestamp ∨
      (it.created_utc = st.max_timestamp ∧ st.max_tie_breaker < it.id))) :
    scanStep brands since st it =
      { all_messages := st.all_messages ++ [processItem it]
        max_timestamp := st.max_timestamp
        max_tie_breaker := st.max_tie_breaker } := by
  unfold scanStep
  rw [if_neg h1, h2, if_pos rfl, if_neg h3, if_neg h3]

theorem emittedItems_cons_skip {brands : List (String × List String)}
    {since : Int} {it : SubredditItem} {rest : List SubredditItem}
    (h : it.created_utc < since) :
    emittedItems brands since (it :: rest) = emittedItems brands since rest := by
  unfold emittedItems
  rw [List.filter_cons]
  simp [h]

theorem emittedItems_cons_nogate {brands : List (String × List String)}
    {since : Int} {it : SubredditItem} {rest : List SubredditItem}
    (h2 : itemQualifies brands it = false) :
    emittedItems brands since (it :: rest) = emittedItems brands since rest := by
  unfold emittedItems
  rw [List.filter_cons]
  simp [h2]

theorem emittedItems_cons_emit {brands : List (String × List String)}
    {since : Int} {it : SubredditItem} {rest : List SubredditItem}
    (h1 : ¬it.created_utc < since) (h2 : itemQualifies brands it = true) :
    emittedItems brands since (it :: rest) =
      it :: emittedItems brands since rest := by
  unfold emittedItems
  rw [List.filter_cons]
  simp [h1, h2]

theorem idsAt_cons_emit {brands : List (String × List String)}
    {since m : Int} {it : SubredditItem} {rest : List SubredditItem}
    (h1 : ¬it.created_utc < since) (h2 : itemQualifies brands it = true) :
    idsAt brands since m (it :: rest) =
      (if it.created_utc = m then [it.id] else []) ++
        idsAt brands since m rest := by
  unfold idsAt
  rw [emittedItems_cons_emit h1 h2, List.filter_cons]
  by_cases hm : it.created_utc = m
  · simp [hm]
  · simp [hm]

theorem intMax2_left_le (a b : Int) : a ≤ intMax2 a b := by
  unfold intMax2
  split
  · rename_i h
    exact le_of_lt h
  · exact le_refl a

theorem intMax2_right_le (a b : Int) : b ≤ intMax2 a b := by
  unfold intMax2
  split
  · exact le_refl b
  · rename_i h
    exact le_of_not_lt h

theorem foldl_intMax2_start_le (l : List Int) :
    ∀ a : Int, a ≤ l.foldl intMax2 a := by
  induction l with
  | nil => intro a; exact le_refl a
  | cons b l ih =>
    intro a
    rw [List.foldl_cons]
    exact le_trans (intMax2_left_le a b) (ih _)

theorem foldl_intMax2_mem_le (l : List Int) :
    ∀ (a t : Int), t ∈ l → t ≤ l.foldl intMax2 a := by
  induction l with
  | nil => intro a t ht; cases ht
  | cons b l ih =>
    intro a t ht
    rw [List.foldl_cons]
    rcases List.mem_cons.mp ht with rfl | ht'
    · exact le_trans (intMax2_right_le a t) (foldl_intMax2_start_le l _)
    · exact ih _ t ht'

theorem foldl_intMax2_cases (l : List Int) :
    ∀ a : Int, l.foldl intMax2 a = a ∨ l.foldl intMax2 a ∈ l := by
  induction l with
  | nil => intro a; left; rfl
  | cons b l ih =>
    intro a
    rw [List.foldl_cons]
    rcases ih (intMax2 a b) with h | h
    · rw [h]
      unfold intMax2
      split
      · right; exact List.mem_cons_self _ _
      · left; rfl
    · right; exact List.mem_cons_of_mem _ h

/-- The running `max_timestamp` after the scan is the `intMax2`-fold of the
emitted items' event times over the starting value. -/
theorem scan_max_char (brands : List (String × List String)) (since : Int) :
    ∀ (items : List SubredditItem) (st : ScanState),
      (items.foldl (scanStep brands since) st).max_timestamp =
        ((emittedItems brands since items).map
          (fun it => it.created_utc)).foldl intMax2 st.max_timestamp := by
  intro items
  induction items with
  | nil => intro st; rfl
  | cons it rest ih =>
    intro st
    rw [List.foldl_cons]
    by_cases h1 : it.created_utc < since
    · rw [scanStep_skip h1, emittedItems_cons_skip h1]
      exact ih st
    · cases h2 : itemQualifies brands it
      · rw [scanStep_no_gate h1 h2, emittedItems_cons_nogate h2]
        exact ih st
      · rw [emittedItems_cons_emit h1 h2, List.map_cons, List.foldl_cons]
        by_cases h3 : it.created_utc > st.max_timestamp ∨
            (it.created_utc = st.max_timestamp ∧ st.max_tie_breaker < it.id)
        · rw [scanStep_emit_adv h1 h2 h3, ih]
          have hmax : intMax2 st.max_timestamp it.created_utc =
              it.created_utc := by
            unfold intMax2
            rcases h3 with h3 | ⟨h3, _⟩
            · rw [if_pos h3]
            · rw [h3]
              split <;> rfl
          rw [hmax]
        · rw [scanStep_emit_keep h1 h2 h3, ih]
          push_neg at h3
          have hmax : intMax2 st.max_timestamp it.created_utc =
              st.max_timestamp := by
            unfold intMax2
            rw [if_neg (not_lt.mpr h3.1)]
          rw [hmax]

/-- The running maximum never decreases. -/
theorem scan_max_mono (brands : List (String × List String)) (since : Int)
    (items : List SubredditItem) (st : ScanState) :
    st.max_timestamp ≤
      (items.foldl (scanStep brands since) st).max_timestamp := by
  rw [scan_max_char]
  exact foldl_intMax2_start_le _ _


/-- The final `max_tie_breaker` is the greatest candidate under the
source's string comparison: it is a candidate, and no candidate is
strictly greater. -/
theorem scan_tie_char (brands : List (String × List String)) (since : Int) :
    ∀ (items : List SubredditItem) (st : ScanState),
      (items.foldl (scanStep brands since) st).max_tie_breaker ∈
        tieCands brands since st.max_timestamp st.max_tie_breaker
          (items.foldl (scanStep brands since) st).max_timestamp items ∧
      ∀ i ∈ tieCands brands since st.max_timestamp st.max_tie_breaker
          (items.foldl (scanStep brands since) st).max_timestamp items,
        ¬(items.foldl (scanStep brands since) st).max_tie_breaker < i := by
  intro items
  induction items with
  | nil =>
    intro st
    unfold tieCands idsAt emittedItems
    simp
  | cons it rest ih =>
    intro st
    rw [List.foldl_cons]
    by_cases h1 : it.created_utc < since
    · rw [scanStep_skip h1]
      have hcands : ∀ m, tieCands brands since st.max_timestamp
          st.max_tie_breaker m (it :: rest) =
          tieCands brands since st.max_timestamp st.max_tie_breaker m rest := by
        intro m
        unfold tieCands idsAt
        rw [emittedItems_cons_skip h1]
      rw [hcands]
      exact ih st
    · cases h2 : itemQualifies brands it
      · rw [scanStep_no_gate h1 h2]
        have hcands : ∀ m, tieCands brands since st.max_timestamp
            st.max_tie_breaker m (it :: rest) =
            tieCands brands since st.max_timestamp st.max_tie_breaker m rest := by
          intro m
          unfold tieCands idsAt
          rw [emittedItems_cons_nogate h2]
        rw [hcands]
        exact ih st
      · by_cases h3 : it.created_utc > st.max_timestamp ∨
            (it.created_utc = st.max_timestamp ∧ st.max_tie_breaker < it.id)
        · rw [scanStep_emit_adv h1 h2 h3]
          obtain ⟨ihm, ihu⟩ := ih
            { all_messages := st.all_messages ++ [processItem it]
              max_timestamp := it.created_utc
              max_tie_breaker := it.id }
          dsimp only at ihm ihu
          have hRge : it.created_utc ≤
              (rest.foldl (scanStep brands since)
                { all_messages := st.all_messages ++ [processItem it]
                  max_timestamp := it.created_utc
                  max_tie_breaker := it.id }).max_timestamp := by
            have := scan_max_mono brands since rest
              { all_messages := st.all_messages ++ [processItem it]
                max_timestamp := it.created_utc
                max_tie_breaker := it.id }
            dsimp only at this
            exact this
          unfold tieCands at ihm ihu ⊢
          rw [idsAt_cons_emit h1 h2]
          rcases h3 with hgt | ⟨heq, htie⟩
          · have hne : (rest.foldl (scanStep brands since)
                { all_messages := st.all_messages ++ [processItem it]
                  max_timestamp := it.created_utc
                  max_tie_breaker := it.id }).max_timestamp ≠
                st.max_timestamp := by omega
            rw [if_neg hne]
            by_cases hc : it.created_utc = (rest.foldl (scanStep brands since)
                { all_messages := st.all_messages ++ [processItem it]
                  max_timestamp := it.created_utc
                  max_tie_breaker := it.id }).max_timestamp
            · rw [if_pos hc.symm] at ihm ihu
              rw [if_pos hc]
              constructor
              · simpa using ihm
              · intro i hi
                exact ihu i (by simpa using hi)
            · rw [if_neg (fun hcc => hc hcc.symm)] at ihm ihu
              rw [if_neg hc]
              constructor
              · simpa using ihm
              · intro i hi
                exact ihu i (by simpa using hi)
          · by_cases hc : it.created_utc = (rest.foldl (scanStep brands since)
                { all_messages := st.all_messages ++ [processItem it]
                  max_timestamp := it.created_utc
                  max_tie_breaker := it.id }).max_timestamp
            · have hmeq : (rest.foldl (scanStep brands since)
                  { all_messages := st.all_messages ++ [processItem it]
                    max_timestamp := it.created_utc
                    max_tie_breaker := it.id }).max_timestamp =
                  st.max_timestamp := by omega
              rw [if_pos hmeq, if_pos hc]
              rw [if_pos hc.symm] at ihm ihu
              simp only [List.mem_append, List.mem_singleton] at ihm ⊢
              constructor
              · tauto
              · intro i hi
                rcases hi with hi | hi | hi
                · subst hi
                  intro hlt
                  exact ihu it.id (by simp) (lt_trans hlt htie)
                · subst hi
                  exact ihu it.id (by simp)
                · exact ihu i (by simp [hi])
            · have hne : (rest.foldl (scanStep brands since)
                  { all_messages := st.all_messages ++ [processItem it]
                    max_timestamp := it.created_utc
                    max_tie_breaker := it.id }).max_timestamp ≠
                  st.max_timestamp := by omega
              rw [if_neg hne, if_neg hc]
              rw [if_neg (fun hcc => hc hcc.symm)] at ihm ihu
              constructor
              · simpa using ihm
              · intro i hi
                exact ihu i (by simpa using hi)
        · rw [scanStep_emit_keep h1 h2 h3]
          have hA : ¬it.created_utc > st.max_timestamp :=
            fun hgt => h3 (Or.inl hgt)
          have hB : ¬(it.created_utc = st.max_timestamp ∧
              st.max_tie_breaker < it.id) := fun hb => h3 (Or.inr hb)
          have hle : it.created_utc ≤ st.max_timestamp := not_lt.mp hA
          obtain ⟨ihm, ihu⟩ := ih
            { all_messages := st.all_messages ++ [processItem it]
              max_timestamp := st.max_timestamp
              max_tie_breaker := st.max_tie_breaker }
          dsimp only at ihm ihu
          have hge : st.max_timestamp ≤
              (rest.foldl (scanStep brands since)
                { all_messages := st.all_messages ++ [processItem it]
                  max_timestamp := st.max_timestamp
                  max_tie_breaker := st.max_tie_breaker }).max_timestamp := by
            have := scan_max_mono brands since rest
              { all_messages := st.all_messages ++ [processItem it]
                max_timestamp := st.max_timestamp
                max_tie_breaker := st.max_tie_breaker }
            dsimp only at this
            exact this
          unfold tieCands at ihm ihu ⊢
          rw [idsAt_cons_emit h1 h2]
          by_cases hc : it.created_utc = (rest.foldl (scanStep brands since)
              { all_messages := st.all_messages ++ [processItem it]
                max_timestamp := st.max_timestamp
                max_tie_breaker := st.max_tie_breaker }).max_timestamp
          · have hceq : it.created_utc = st.max_timestamp := by omega
            have hmeq : (rest.foldl (scanStep brands since)
                { all_messages := st.all_messages ++ [processItem it]
                  max_timestamp := st.max_timestamp
                  max_tie_breaker := st.max_tie_breaker }).max_timestamp =
                st.max_timestamp := by omega
            rw [if_pos hmeq, if_pos hc]
            rw [if_pos hmeq] at ihm ihu
            have hidle : it.id ≤ st.max_tie_breaker :=
              not_lt.mp (fun hlt => hB ⟨hceq, hlt⟩)
            simp only [List.mem_append, List.mem_singleton] at ihm ⊢
            constructor
            · tauto
            · intro i hi
              rcases hi with hi | hi | hi
              · subst hi
                exact ihu st.max_tie_breaker (by simp)
              · subst hi
                intro hlt
                exact ihu st.max_tie_breaker (by simp)
                  (lt_of_lt_of_le hlt hidle)
              · exact ihu i (by simp [hi])
          · rw [if_neg hc]
            constructor
            · simpa using ihm
            · intro i hi
              exact ihu i (by simpa using hi)

theorem emittedItems_mem {brands : List (String × List String)}
    {since : Int} {items : List SubredditItem} {it : SubredditItem} :
    it ∈ emittedItems brands since items ↔
      it ∈ items ∧ ¬it.created_utc < since ∧
        itemQualifies brands it = true := by
  unfold emittedItems
  rw [List.mem_filter]
  simp

/-- C6.  The watermark pair `(max_timestamp, max_tie_breaker)` invariant:
pre-window items are skipped; an emitted item strictly past the maximum
replaces both components; an emitted item tied at the maximum replaces only
the tie-breaker and only for a strictly greater id (string comparison);
at the end the maximum is the fold of the emitted items' event times over
`since_timestamp`, the tie-breaker is the greatest candidate (the ids of
emitted items at the final maximum, plus the seeded prior tie-breaker when
the maximum never advanced), and identical runs produce identical
results. -/
theorem watermark_tie_rule (brands : List (String × List String))
    (since : Int) (seedTie : String) (items : List SubredditItem) :
    (∀ (st : ScanState) (it : SubredditItem), it.created_utc < since →
        scanStep brands since st it = st) ∧
    (∀ (st : ScanState) (it : SubredditItem), ¬it.created_utc < since →
        itemQualifies brands it = true →
        (st.max_timestamp < it.created_utc →
          (scanStep brands since st it).max_timestamp = it.created_utc ∧
          (scanStep brands since st it).max_tie_breaker = it.id) ∧
        (it.created_utc = st.max_timestamp → st.max_tie_breaker < it.id →
          (scanStep brands since st it).max_timestamp = st.max_timestamp ∧
          (scanStep brands since st it).max_tie_breaker = it.id) ∧
        (it.created_utc = st.max_timestamp → ¬st.max_tie_breaker < it.id →
          scanStep brands since st it =
            { all_messages := st.all_messages ++ [processItem it]
              max_timestamp := st.max_timestamp
              max_tie_breaker := st.max_tie_breaker })) ∧
    ((scanItems brands since seedTie items).max_timestamp =
      ((emittedItems brands since items).map
        (fun it => it.created_utc)).foldl intMax2 since) ∧
    ((scanItems brands since seedTie items).max_tie_breaker ∈
        tieCands brands since since seedTie
          (scanItems brands since seedTie items).max_timestamp items ∧
      ∀ i ∈ tieCands brands since since seedTie
          (scanItems brands since seedTie items).max_timestamp items,
        ¬(scanItems brands since seedTie items).max_tie_breaker < i) ∧
    scanItems brands since seedTie items =
      scanItems brands since seedTie items := by
  refine ⟨?_, ?_, ?_, ?_, rfl⟩
  · intro st it h
    exact scanStep_skip h
  · intro st it h1 h2
    refine ⟨?_, ?_, ?_⟩
    · intro hgt
      rw [scanStep_emit_adv h1 h2 (Or.inl hgt)]
      exact ⟨rfl, rfl⟩
    · intro heq htie
      rw [scanStep_emit_adv h1 h2 (Or.inr ⟨heq, htie⟩)]
      exact ⟨heq, rfl⟩
    · intro heq htie
      refine scanStep_emit_keep h1 h2 ?_
      intro hcon
      rcases hcon with hgt | ⟨_, htie2⟩
      · omega
      · exact htie htie2
  · unfold scanItems
    exact scan_max_char brands since items _
  · unfold scanItems
    exact scan_tie_char brands since items
      { all_messages := [], max_timestamp := since, max_tie_breaker := seedTie }

/-- Witness for the watermark rule at concrete inputs: an emitted item past
the running maximum installs its time and id. -/
theorem watermark_tie_rule_witness :
    (scanStep [("b", ["Brandx"])] 0
        { all_messages := [], max_timestamp := 0, max_tie_breaker := "" }
        { reddit_type := "post", id := "idA", created_utc := 5,
          text := "Brandx rocks", brand_id := "b" }).max_timestamp = 5 ∧
    (scanStep [("b", ["Brandx"])] 0
        { all_messages := [], max_timestamp := 0, max_tie_breaker := "" }
        { reddit_type := "post", id := "idA", created_utc := 5,
          text := "Brandx rocks", brand_id := "b" }).max_tie_breaker = "idA" :=
  ((watermark_tie_rule [("b", ["Brandx"])] 0 "" []).2.1
      { all_messages := [], max_timestamp := 0, max_tie_breaker := "" }
      { reddit_type := "post", id := "idA", created_utc := 5,
        text := "Brandx rocks", brand_id := "b" }
      (by decide) (by with_unfolding_all decide)).1 (by decide)


theorem fetch_incremental_eq (brands : List (String × List String))
    (search : Nat → List SubredditItem) (readRes writeRes : Except String Unit)
    (store : List StateRow) (subreddit_name : String)
    (sinceArg : Option Int) (initialFetch : Bool) (now : Int) :
    fetch_incremental_posts_and_comments brands search readRes writeRes store
        subreddit_name sinceArg initialFetch now =
      if (runScan brands search readRes store subreddit_name sinceArg
          initialFetch now).max_timestamp >
          runSince readRes store subreddit_name sinceArg initialFetch now then
        ((runScan brands search readRes store subreddit_name sinceArg
            initialFetch now).all_messages,
          update_state writeRes store
            { source := "reddit_" ++ subreddit_name
              cursor := (runScan brands search readRes store subreddit_name
                sinceArg initialFetch now).max_timestamp
              tie_breaker_id := (runScan brands search readRes store
                subreddit_name sinceArg initialFetch now).max_tie_breaker })
      else
        ((runScan brands search readRes store subreddit_name sinceArg
            initialFetch now).all_messages, store) := rfl

theorem get_state_append_self (store : List StateRow) (row : StateRow)
    (key : String) (h : row.source = key) :
    get_state (Except.ok ()) (store ++ [row]) key =
      (some row.cursor, some row.tie_breaker_id) := by
  unfold get_state
  rw [List.filter_append]
  have hrow : List.filter (fun r => r.source == key) [row] = [row] := by
    simp [h]
  rw [hrow, List.getLast?_concat]

/-- The final maximum strictly exceeds `since` exactly when some emitted
item's event time does. -/
theorem runScan_max_gt_iff (brands : List (String × List String))
    (search : Nat → List SubredditItem) (readRes : Except String Unit)
    (store : List StateRow) (subreddit_name : String)
    (sinceArg : Option Int) (initialFetch : Bool) (now : Int) :
    (runScan brands search readRes store subreddit_name sinceArg initialFetch
        now).max_timestamp >
      runSince readRes store subreddit_name sinceArg initialFetch now ↔
      ∃ it ∈ search (fetchLimit initialFetch),
        itemQualifies brands it = true ∧
        runSince readRes store subreddit_name sinceArg initialFetch now <
          it.created_utc := by
  unfold runScan scanItems
  rw [scan_max_char]
  dsimp only
  constructor
  · intro hgt
    rcases foldl_intMax2_cases _ _ with hcase | hcase
    · rw [hcase] at hgt
      exact absurd hgt (lt_irrefl _)
    · rw [List.mem_map] at hcase
      obtain ⟨it, hit, hval⟩ := hcase
      obtain ⟨hmem, _, hq⟩ := emittedItems_mem.mp hit
      exact ⟨it, hmem, hq, by rw [← hval] at hgt; exact hgt⟩
  · intro ⟨it, hmem, hq, hlt⟩
    have hit : it ∈ emittedItems brands
        (runSince readRes store subreddit_name sinceArg initialFetch now)
        (search (fetchLimit initialFetch)) :=
      emittedItems_mem.mpr ⟨hmem, by omega, hq⟩
    have hle := foldl_intMax2_mem_le
      ((emittedItems brands
        (runSince readRes store subreddit_name sinceArg initialFetch now)
        (search (fetchLimit initialFetch))).map (fun it => it.created_utc))
      (runSince readRes store subreddit_name sinceArg initialFetch now)
      it.created_utc (List.mem_map_of_mem _ hit)
    exact lt_of_lt_of_le hlt hle

/-- C5.  The poll writes a new cursor row iff the tracked maximum advanced
strictly past the starting window: an append happens exactly when some
qualifying item lies strictly past `since_timestamp`; a poll with no
qualifying in-window items leaves the prior table untouched; and when a
prior cursor exists and upstream event times of qualifying items exceed
it, the persisted cursor after the run never regresses by more than the
overlap window. -/
theorem cursor_advance_rules (brands : List (String × List String))
    (search : Nat → List SubredditItem) (readRes writeRes : Except String Unit)
    (store : List StateRow) (subreddit_name : String)
    (sinceArg : Option Int) (initialFetch : Bool) (now : Int) :
    ((fetch_incremental_posts_and_comments brands search readRes
        (Except.ok ()) store subreddit_name sinceArg initialFetch now).2 ≠
        store ↔
      ∃ it ∈ search (fetchLimit initialFetch),
        itemQualifies brands it = true ∧
        runSince readRes store subreddit_name sinceArg initialFetch now <
          it.created_utc) ∧
    ((∀ it ∈ search (fetchLimit initialFetch),
        itemQualifies brands it = true →
        it.created_utc <
          runSince readRes store subreddit_name sinceArg initialFetch now) →
      (fetch_incremental_posts_and_comments brands search readRes writeRes
        store subreddit_name sinceArg initialFetch now).2 = store) ∧
    (∀ (c : Int) (tb : Option String),
      get_state readRes store ("reddit_" ++ subreddit_name) = (some c, tb) →
      (∀ it ∈ search (fetchLimit initialFetch),
          itemQualifies brands it = true → c < it.created_utc) →
      ∃ c', (get_state (Except.ok ())
          (fetch_incremental_posts_and_comments brands search readRes writeRes
            store subreddit_name sinceArg initialFetch now).2
          ("reddit_" ++ subreddit_name)).1 = some c' ∧
        c - overlap_seconds ≤ c') := by
  refine ⟨?_, ?_, ?_⟩
  · rw [fetch_incremental_eq]
    rw [← runScan_max_gt_iff brands search readRes store subreddit_name
      sinceArg initialFetch now]
    constructor
    · intro hne
      by_contra hcon
      rw [if_neg hcon] at hne
      exact hne rfl
    · intro hgt
      rw [if_pos hgt]
      intro hcon
      have := congrArg List.length hcon
      simp [update_state] at this
  · intro hnone
    rw [fetch_incremental_eq]
    have hno : ¬(runScan brands search readRes store subreddit_name sinceArg
        initialFetch now).max_timestamp >
        runSince readRes store subreddit_name sinceArg initialFetch now := by
      rw [runScan_max_gt_iff]
      intro ⟨it, hmem, hq, hlt⟩
      have := hnone it hmem hq
      omega
    rw [if_neg hno]
  · intro c tb hstate hinc
    have hread : get_state (Except.ok ()) store ("reddit_" ++ subreddit_name)
        = (some c, tb) := by
      cases readRes with
      | error msg => simp [get_state] at hstate
      | ok u => cases u; exact hstate
    by_cases hadv : (runScan brands search readRes store subreddit_name
        sinceArg initialFetch now).max_timestamp >
        runSince readRes store subreddit_name sinceArg initialFetch now
    · rw [fetch_incremental_eq, if_pos hadv]
      cases writeRes with
      | error msg =>
        refine ⟨c, ?_, by unfold overlap_seconds; omega⟩
        show (get_state (Except.ok ()) store ("reddit_" ++ subreddit_name)).1
          = some c
        rw [hread]
      | ok u =>
        cases u
        rw [show update_state (Except.ok ()) store _ = store ++ [_] from rfl]
        rw [get_state_append_self _ _ _ rfl]
        refine ⟨(runScan brands search readRes store subreddit_name sinceArg
          initialFetch now).max_timestamp, rfl, ?_⟩
        have hmax := runScan_max_gt_iff brands search readRes store
          subreddit_name sinceArg initialFetch now |>.mp hadv
        have hchar : (runScan brands search readRes store subreddit_name
            sinceArg initialFetch now).max_timestamp =
            ((emittedItems brands (runSince readRes store subreddit_name
              sinceArg initialFetch now) (search (fetchLimit initialFetch))).map
              (fun it => it.created_utc)).foldl intMax2
              (runSince readRes store subreddit_name sinceArg initialFetch
                now) := by
          unfold runScan scanItems
          exact scan_max_char _ _ _ _
        rcases foldl_intMax2_cases
            ((emittedItems brands (runSince readRes store subreddit_name
              sinceArg initialFetch now) (search (fetchLimit initialFetch))).map
              (fun it => it.created_utc))
            (runSince readRes store subreddit_name sinceArg initialFetch now)
          with hcase | hcase
        · rw [hchar, hcase]
          rw [hchar, hcase] at hadv
          exact absurd hadv (lt_irrefl _)
        · rw [List.mem_map] at hcase
          obtain ⟨it, hit, hval⟩ := hcase
          obtain ⟨hmem, _, hq⟩ := emittedItems_mem.mp hit
          have := hinc it hmem hq
          rw [hchar, ← hval]
          unfold overlap_seconds
          omega
    · rw [fetch_incremental_eq, if_neg hadv]
      refine ⟨c, ?_, by unfold overlap_seconds; omega⟩
      rw [hread]

/-- Witness for the cursor-advance rules at concrete inputs: prior cursor
50, one qualifying item at time 100, normal read and write; after the run
the persisted cursor is at least `50 - overlap`. -/
theorem cursor_advance_rules_witness :
    ∃ c', (get_state (Except.ok ())
        (fetch_incremental_posts_and_comments [("b", ["Brandx"])]
          (fun _ => [⟨"post", "id1", 100, "Brandx is great", "b"⟩])
          (Except.ok ()) (Except.ok ())
          [⟨"reddit_test", 50, "id0"⟩]
          "test" none false 0).2 ("reddit_" ++ "test")).1 = some c' ∧
      50 - overlap_seconds ≤ c' :=
  (cursor_advance_rules [("b", ["Brandx"])]
      (fun _ => [⟨"post", "id1", 100, "Brandx is great", "b"⟩])
      (Except.ok ()) (Except.ok ())
      [⟨"reddit_test", 50, "id0"⟩]
      "test" none false 0).2.2 50 (some "id0") (by decide)
    (by with_unfolding_all decide)

/-- C7, counterexample.  With an explicit `since_timestamp = 1000` and a
persisted cursor of 9000 (and `initial_fetch = False`), the effective
window is `max(0, 1000 - 7200) = 0`, not `9000 - 7200 = 1800`: an explicit
argument overrides the persisted cursor. -/
theorem explicit_since_overrides_cursor :
    computeSince 0 (some 1000) (some 9000) false = 0 ∧
    (9000 : Int) - overlap_seconds = 1800 ∧ (0 : Int) ≠ 1800 :=
  ⟨by decide, by decide, by decide⟩

/-- C7, amended.  The effective window: with no prior cursor, no (truthy)
explicit `since_timestamp` and `initial_fetch = False` it defaults to now
minus the 7-day lookback with the small fetch limit (100); with a prior
cursor, `initial_fetch = False` and no explicit `since_timestamp` it is the
cursor minus the 2-hour overlap; with `initial_fetch = True` it is always
the lookback default with the large fetch limit (500). -/
theorem effective_window_selection :
    (∀ now : Int, computeSince now none none false = now - 7 * 86400) ∧
    fetchLimit false = 100 ∧
    (∀ now c : Int,
      computeSince now none (some c) false = c - overlap_seconds) ∧
    (∀ (now : Int) (sinceArg : Option Int) (lastCursor : Option Int),
      computeSince now sinceArg lastCursor true = now - 7 * 86400) ∧
    fetchLimit true = 500 := by
  refine ⟨fun now => rfl, rfl, fun now c => rfl, ?_, rfl⟩
  intro now sa lc
  unfold computeSince
  simp

/-- C8.  `event_id` is a deterministic function of the native type and id
alone: posts map to `reddit_t3_{id}`, comments to `reddit_t1_{id}`,
anything else to `reddit_{type}_{id}`; the duplicated module computes the
same function; and normalizing two items with the same native type and id
gives the same `event_id` (regardless of the rest of the item). -/
theorem event_id_deterministic :
    (∀ i : String, generateEventId "post" i = "reddit_t3_" ++ i) ∧
    (∀ i : String, generateEventId "comment" i = "reddit_t1_" ++ i) ∧
    (∀ ty i : String, ty ≠ "post" → ty ≠ "comment" →
        generateEventId ty i = "reddit_" ++ ty ++ "_" ++ i) ∧
    (∀ ty i : String, generateEventId ty i = generateEventIdIdem ty i) ∧
    (∀ it1 it2 : SubredditItem, it1.reddit_type = it2.reddit_type →
        it1.id = it2.id →
        (processItem it1).event_id = (processItem it2).event_id) := by
  refine ⟨fun i => rfl, fun i => rfl, ?_, fun ty i => rfl, ?_⟩
  · intro ty i h1 h2
    unfold generateEventId
    rw [if_neg h1, if_neg h2]
  · intro it1 it2 h1 h2
    show generateEventId it1.reddit_type it1.id =
      generateEventId it2.reddit_type it2.id
    rw [h1, h2]

/-- Witness for event-id determinism: an unknown native type falls into
the generic `reddit_{type}_{id}` shape. -/
theorem event_id_deterministic_witness :
    generateEventId "subreddit" "abc1" =
      "reddit_" ++ "subreddit" ++ "_" ++ "abc1" :=
  event_id_deterministic.2.2.1 "subreddit" "abc1" (by decide) (by decide)

/-- C9.  Cursor Store failures degrade rather than abort: a failing read
yields `(None, None)`; the poller then behaves exactly as with no prior
state and (with no explicit argument) falls back to the lookback window;
a failing write is swallowed — the poll still returns its messages and the
table is left unchanged. -/
theorem cursor_store_failure_handling :
    (∀ (msg : String) (store : List StateRow) (key : String),
        get_state (Except.error msg) store key = (none, none)) ∧
    (∀ (msg : String) (store : List StateRow) (subreddit_name : String)
        (initialFetch : Bool) (now : Int),
        runSince (Except.error msg) store subreddit_name none initialFetch now
          = now - 7 * 86400) ∧
    (∀ (brands : List (String × List String))
        (search : Nat → List SubredditItem) (msg : String)
        (writeRes : Except String Unit) (store : List StateRow)
        (subreddit_name : String) (sinceArg : Option Int)
        (initialFetch : Bool) (now : Int),
        (fetch_incremental_posts_and_comments brands search
            (Except.error msg) writeRes store subreddit_name sinceArg
            initialFetch now).1 =
          (fetch_incremental_posts_and_comments brands search
            (Except.ok ()) writeRes [] subreddit_name sinceArg
            initialFetch now).1) ∧
    (∀ (brands : List (String × List String))
        (search : Nat → List SubredditItem) (readRes : Except String Unit)
        (msg : String) (store : List StateRow) (subreddit_name : String)
        (sinceArg : Option Int) (initialFetch : Bool) (now : Int),
        (fetch_incremental_posts_and_comments brands search readRes
            (Except.error msg) store subreddit_name sinceArg initialFetch
            now).1 =
          (fetch_incremental_posts_and_comments brands search readRes
            (Except.ok ()) store subreddit_name sinceArg initialFetch
            now).1 ∧
        (fetch_incremental_posts_and_comments brands search readRes
            (Except.error msg) store subreddit_name sinceArg initialFetch
            now).2 = store) := by
  refine ⟨fun msg store key => rfl, fun msg store sub init now => rfl,
    ?_, ?_⟩
  · intro brands search msg writeRes store sub sinceArg init now
    have hsince : runSince (Except.error msg) store sub sinceArg init now =
        runSince (Except.ok ()) [] sub sinceArg init now := rfl
    have hscan : runScan brands search (Except.error msg) store sub sinceArg
        init now = runScan brands search (Except.ok ()) [] sub sinceArg
        init now := rfl
    by_cases hadv : (runScan brands search (Except.error msg) store sub
        sinceArg init now).max_timestamp >
        runSince (Except.error msg) store sub sinceArg init now
    · rw [fetch_incremental_eq, fetch_incremental_eq, if_pos hadv,
        if_pos (by rw [← hscan, ← hsince]; exact hadv)]
      rw [hscan]
    · rw [fetch_incremental_eq, fetch_incremental_eq, if_neg hadv,
        if_neg (by rw [← hscan, ← hsince]; exact hadv)]
      rw [hscan]
  intro brands search readRes msg store sub sinceArg init now
  by_cases hadv : (runScan brands search readRes store sub sinceArg
      init now).max_timestamp > runSince readRes store sub sinceArg init now
  · rw [fetch_incremental_eq, fetch_incremental_eq, if_pos hadv, if_pos hadv]
    exact ⟨rfl, rfl⟩
  · rw [fetch_incremental_eq, fetch_incremental_eq, if_neg hadv, if_neg hadv]
    exact ⟨rfl, rfl⟩

theorem toBytesBE_length (k : Nat) : ∀ n : Nat, (toBytesBE k n).length = k := by
  induction k with
  | zero => intro n; rfl
  | succ k ih =>
    intro n
    simp [toBytesBE, ih]

theorem toBytesBE_lt (k : Nat) :
    ∀ (n : Nat), ∀ b ∈ toBytesBE k n, b < 256 := by
  induction k with
  | zero => intro n b hb; simp [toBytesBE] at hb
  | succ k ih =>
    intro n b hb
    simp only [toBytesBE, List.mem_append, List.mem_singleton] at hb
    rcases hb with hb | hb
    · exact ih _ b hb
    · rw [hb]
      exact Nat.mod_lt _ (by norm_num)

theorem sha256Bytes_length (msg : List Nat) :
    (sha256Bytes msg).length = 32 := by
  unfold sha256Bytes
  simp [toBytesBE_length]

theorem sha256Bytes_lt (msg : List Nat) :
    ∀ b ∈ sha256Bytes msg, b < 256 := by
  unfold sha256Bytes
  intro b hb
  simp only [List.mem_append] at hb
  rcases hb with ((((((hb | hb) | hb) | hb) | hb) | hb) | hb) | hb <;>
    exact toBytesBE_lt 4 _ b hb

theorem hexDigest_length (bytes : List Nat) :
    (hexDigest bytes).length = 2 * bytes.length := by
  induction bytes with
  | nil => rfl
  | cons b l ih =>
    simp only [hexDigest, List.map_cons, List.flatten_cons, List.length_append]
    rw [show (byteToHex b).length = 2 from rfl]
    unfold hexDigest at ih
    rw [ih]
    simp [List.length_cons]
    ring

theorem hexChar_mem {n : Nat} (h : n < 16) :
    hexChar n ∈ "0123456789abcdef".toList := by
  have hall : ∀ m < 16, hexChar m ∈ "0123456789abcdef".toList := by decide
  exact hall n h

theorem hexDigest_mem {bytes : List Nat} (hb : ∀ b ∈ bytes, b < 256) :
    ∀ c ∈ hexDigest bytes, c ∈ "0123456789abcdef".toList := by
  intro c hc
  unfold hexDigest at hc
  rw [List.mem_flatten] at hc
  obtain ⟨l, hl, hcl⟩ := hc
  rw [List.mem_map] at hl
  obtain ⟨b, hbm, rfl⟩ := hl
  have h256 := hb b hbm
  unfold byteToHex at hcl
  simp only [List.mem_cons, List.not_mem_nil, or_false] at hcl
  rcases hcl with rfl | rfl
  · exact hexChar_mem (Nat.div_lt_of_lt_mul (by omega))
  · exact hexChar_mem (Nat.mod_lt _ (by norm_num))

/-- The embedded SHA-256 agrees with the FIPS 180-4 test vector for "abc"
and the empty string. -/
theorem sha256_matches_test_vectors :
    String.mk (hexDigest (sha256Bytes (utf8Encode "abc"))) =
      "ba7816bf8f01cfea414140de5dae2223b00361a396177a9cb410ff61f20015ad" ∧
    generateContentHash "" = "e3b0c44298fc1c14" := by
  constructor
  · set_option maxRecDepth 100000 in decide
  · set_option maxRecDepth 100000 in decide

/-- C10.  `content_hash` is exactly the first 16 hex characters of the
SHA-256 of the UTF-8 encoded text; both duplicated modules compute the
same function; the normalizer assigns it from the record's text alone, so
equal texts produce equal hashes; and the value is always a 16-character
lowercase-hex string. -/
theorem content_hash_spec :
    (∀ text : String, generateContentHash text =
        String.mk ((hexDigest (sha256Bytes (utf8Encode text))).take 16)) ∧
    (∀ text : String,
        generateContentHash text = generateContentHashIdem text) ∧
    (∀ it : SubredditItem,
        (processItem it).content_hash = generateContentHash it.text) ∧
    (∀ it1 it2 : SubredditItem, it1.text = it2.text →
        (processItem it1).content_hash = (processItem it2).content_hash) ∧
    (∀ text : String, (generateContentHash text).length = 16 ∧
        ∀ c ∈ (generateContentHash text).toList,
          c ∈ "0123456789abcdef".toList) := by
  refine ⟨fun text => rfl, fun text => rfl, fun it => rfl, ?_, ?_⟩
  · intro it1 it2 h
    show generateContentHash it1.text = generateContentHash it2.text
    rw [h]
  · intro text
    constructor
    · show ((hexDigest (sha256Bytes (utf8Encode text))).take 16).length = 16
      rw [List.length_take, hexDigest_length, sha256Bytes_length]
      decide
    · intro c hc
      have hc' : c ∈ (hexDigest (sha256Bytes (utf8Encode text))).take 16 := hc
      exact hexDigest_mem (sha256Bytes_lt _) c (List.mem_of_mem_take hc')

/-- Witness for the content-hash determinism: two normalized records (one
post, one comment) carrying the same text share their `content_hash`. -/
theorem content_hash_spec_witness :
    (processItem ⟨"post", "a1", 5, "same words", "b"⟩).content_hash =
      (processItem ⟨"comment", "z9", 7, "same words", "b2"⟩).content_hash :=
  content_hash_spec.2.2.2.1 ⟨"post", "a1", 5, "same words", "b"⟩
    ⟨"comment", "z9", 7, "same words", "b2"⟩ rfl

end BrandHealth
